import Mathlib

/-!
A shallow embedding of the core of `Archive/main_v2.py` from the
Perishable-Supply-chain-Optimizer repository: the day-by-day batch-allocation
simulation (`PerishableSupplyChain.run_simulation`) and the production
optimizer's integer-program objective and constraints
(`PerishableSupplyChain.optimize_production`).

Numeric quantities (production quantities, proportions, rates, costs) are
modelled as exact rationals.  Python's `round` builtin (round-half-to-even,
"banker's rounding") is modelled by `pyRound`, two-decimal rounding
`round(x, 2)` by `pyRound2`, and `int()` truncation by `pyInt`.
-/

/-- Python's `round(x)`: round half to even (banker's rounding). -/
def pyRound (q : ℚ) : ℤ :=
  if q - ⌊q⌋ < 1/2 then ⌊q⌋
  else if 1/2 < q - ⌊q⌋ then ⌊q⌋ + 1
  else if ⌊q⌋ % 2 = 0 then ⌊q⌋ else ⌊q⌋ + 1

/-- Python's `round(x, 2)`: round to two decimal places, half to even. -/
def pyRound2 (q : ℚ) : ℚ := (pyRound (q * 100) : ℚ) / 100

/-- Python's `int(x)`: truncation toward zero. -/
def pyInt (q : ℚ) : ℤ := if q < 0 then ⌈q⌉ else ⌊q⌋

/-! ## Data model

`Batch` mirrors the per-batch dict `{'initial': qty, 'current': qty,
'expiry': day + shelf_life - 1}`; `Distributor` mirrors the distributor
config dicts; `PurchaseRec` mirrors one row appended to `purchases`;
`SnapRec` mirrors one `inventory_log` entry (`Q{b_day}` columns as an
assoc list, keys ascending); `WasteRec` mirrors one row of `waste_data`.
The batch ledger `batches` (a Python dict keyed by production day, with
insertion order) is an assoc list. -/

structure Batch where
  initial : ℚ
  current : ℚ
  expiry : ℤ
deriving DecidableEq

structure Distributor where
  name : String
  policy_days : ℕ
  proportion : ℚ
  distance_km : ℚ
  purchase_days : List Bool
  preferred_products : List String
deriving DecidableEq

structure PurchaseRec where
  product : String
  day : ℕ
  distributor : String
  batch_day : ℕ
  quantity : ℚ
  shelf_age : ℤ
  policy : ℕ
  proportion : ℚ
  transport_cost : ℚ
deriving DecidableEq

structure SnapRec where
  day : ℕ
  phase : String
  qty : List (ℕ × ℤ)
deriving DecidableEq

structure WasteRec where
  product : String
  batch_day : ℕ
  initial : ℚ
  waste : ℚ
  waste_pct : ℚ
deriving DecidableEq

structure SimState where
  batches : List (ℕ × Batch)
  purchases : List PurchaseRec
  inventory_log : List SnapRec
  waste : List (ℕ × ℚ)
deriving DecidableEq

/-! ## Sorting helpers

`sortK` models Python's `sorted(...)` on key-value pairs ordered by key
(used for `sorted(valid_batches.items())` and `sorted(batches.keys())`);
`sortByPolicy` models `sorted(self.distributors, key=lambda x:
x['policy_days'])` — Python's sort is stable, and so is this insertion
sort (a later element is inserted after equal keys). -/

def insertK {α : Type} (x : ℕ × α) : List (ℕ × α) → List (ℕ × α)
  | [] => [x]
  | y :: ys => if y.1 ≤ x.1 then y :: insertK x ys else x :: y :: ys

def sortK {α : Type} (l : List (ℕ × α)) : List (ℕ × α) :=
  l.foldl (fun acc x => insertK x acc) []

def insertD (x : Distributor) : List Distributor → List Distributor
  | [] => [x]
  | y :: ys => if y.policy_days ≤ x.policy_days then y :: insertD x ys else x :: y :: ys

def sortByPolicy (l : List Distributor) : List Distributor :=
  l.foldl (fun acc x => insertD x acc) []

/-! ## Allocation: distributing one distributor's purchase across batches

`distributeShares A T l rem` mirrors the loop over `sorted_batches[:-1]`
(`share = int(round((batch['current'] / total_available) * total_purchase))`,
then `share = min(share, batch['current'], remaining_purchase)`) followed by
the last batch receiving `min(remaining_purchase, batch['current'])`.
Each output triple is `(batch day, current at allocation, allocated share)`. -/

def distributeShares (A T : ℚ) : List (ℕ × ℚ) → ℚ → List (ℕ × ℚ × ℚ)
  | [], _ => []
  | [(d, c)], rem => [(d, c, min rem c)]
  | (d, c) :: next :: rest, rem =>
      let s := min (min ((pyRound (c / A * T) : ℤ) : ℚ) c) rem
      (d, c, s) :: distributeShares A T (next :: rest) (rem - s)

/-! ## The distributor step, day loop and simulation run -/

/-- Valid batches for one distributor on one day:
`(current_day - p_day) < policy and b['current'] > 0`. -/
def validBatches (day : ℕ) (policy : ℕ) (batches : List (ℕ × Batch)) :
    List (ℕ × Batch) :=
  batches.filter (fun pb =>
    decide ((day : ℤ) - pb.1 < (policy : ℤ)) && decide (0 < pb.2.current))

/-- `total_available = sum(b['current'] for b in valid_batches.values())`. -/
def totalAvailable (day : ℕ) (dist : Distributor) (st : SimState) : ℚ :=
  ((validBatches day dist.policy_days st.batches).map (fun pb => pb.2.current)).sum

/-- One purchase row, as appended to `purchases` for a share `t`. -/
def mkRec (pname : String) (day : ℕ) (dist : Distributor) (proportion rate : ℚ)
    (t : ℕ × ℚ × ℚ) : PurchaseRec :=
  { product := pname, day := day, distributor := dist.name, batch_day := t.1,
    quantity := t.2.2, shelf_age := (day : ℤ) - t.1, policy := dist.policy_days,
    proportion := proportion, transport_cost := t.2.2 * dist.distance_km * rate }

/-- Batch-ledger update after one distributor's allocation: each valid batch's
`current` is decremented by its share, and any valid batch left with
`current <= 0` is deleted (`del batches[p_day]`). -/
def applyShares (sm : List (ℕ × ℚ)) (batches : List (ℕ × Batch)) :
    List (ℕ × Batch) :=
  batches.filterMap (fun pb =>
    match List.lookup pb.1 sm with
    | some s =>
        let c := pb.2.current - s
        if c ≤ 0 then none else some (pb.1, { pb.2 with current := c })
    | none => some pb)

/-- One distributor's processing inside the day loop of `run_simulation`
(lines 70-150 of `main_v2.py`). -/
def distributorStep (pname : String) (rate : ℚ) (day : ℕ) (st : SimState)
    (dist : Distributor) : SimState :=
  if pname ∉ dist.preferred_products then st
  else
    let proportion := pyRound2 dist.proportion
    if dist.purchase_days.length < day ∨
        dist.purchase_days.getD (day - 1) false = false ∨ day % 7 = 0 then st
    else
      let valid := validBatches day dist.policy_days st.batches
      if valid.isEmpty then st
      else
        let A := totalAvailable day dist st
        let T : ℚ := ((pyRound (proportion * A) : ℤ) : ℚ)
        let shares := distributeShares A T
          (sortK (valid.map (fun pb => (pb.1, pb.2.current)))) T
        let newRecs := (shares.filter (fun t => decide (0 < t.2.2))).map
          (mkRec pname day dist proportion rate)
        let sm := shares.map (fun t => (t.1, t.2.2))
        { st with
          batches := applyShares sm st.batches,
          purchases := st.purchases ++ newRecs }

/-- Batch creation at the top of the day loop:
`if current_day in production_plan and production_plan[current_day] > 0`. -/
def addBatch (plan : List (ℕ × ℚ)) (shelf_life : ℕ) (day : ℕ)
    (batches : List (ℕ × Batch)) : List (ℕ × Batch) :=
  match List.lookup day plan with
  | some q =>
      if 0 < q then
        batches ++ [(day, { initial := q, current := q,
                            expiry := (day : ℤ) + shelf_life - 1 })]
      else batches
  | none => batches

/-- One inventory-log row: `{'Day': d, 'Phase': ph, 'Q{b_day}': int(current)}`
with batch days ascending. -/
def snapshot (phase : String) (day : ℕ) (batches : List (ℕ × Batch)) : SnapRec :=
  { day := day, phase := phase,
    qty := (sortK batches).map (fun pb => (pb.1, pyInt pb.2.current)) }

/-- Expiry at the top of the day: batches with `expiry == current_day` are
recorded in `waste` and removed from the ledger. -/
def expireStep (day : ℕ) (st : SimState) : SimState :=
  let expired := st.batches.filter (fun pb => decide (pb.2.expiry = (day : ℤ)))
  { st with
    waste := st.waste ++ expired.map (fun pb => (pb.1, pb.2.current)),
    batches := st.batches.filter (fun pb => ! decide (pb.2.expiry = (day : ℤ))) }

/-- One full simulation day for one product. -/
def dayStep (pname : String) (plan : List (ℕ × ℚ)) (shelf_life : ℕ)
    (dists : List Distributor) (rate : ℚ) (st : SimState) (day : ℕ) : SimState :=
  let st1 : SimState := { st with batches := addBatch plan shelf_life day st.batches }
  let st2 : SimState := { st1 with
    inventory_log := st1.inventory_log ++ [snapshot "Start" day st1.batches] }
  let st3 := expireStep day st2
  let st4 := (sortByPolicy dists).foldl (distributorStep pname rate day) st3
  { st4 with inventory_log := st4.inventory_log ++ [snapshot "End" day st4.batches] }

def initState : SimState := { batches := [], purchases := [], inventory_log := [], waste := [] }

/-- The whole day loop of `run_simulation` for one product. -/
def runProduct (pname : String) (shelf_life : ℕ) (plan : List (ℕ × ℚ))
    (dists : List Distributor) (rate : ℚ) (total_days : ℕ) : SimState :=
  (List.range' 1 total_days).foldl (dayStep pname plan shelf_life dists rate) initState

/-- Waste table rows (one per day 1..total_days, zero-filled when no
production happened that day). -/
def wasteRows (pname : String) (plan : List (ℕ × ℚ)) (waste : List (ℕ × ℚ))
    (total_days : ℕ) : List WasteRec :=
  (List.range' 1 total_days).map (fun day =>
    let initial := (List.lookup day plan).getD 0
    if 0 < initial then
      let expired := (List.lookup day waste).getD 0
      { product := pname, batch_day := day, initial := initial, waste := expired,
        waste_pct := pyRound2 (expired / initial * 100) }
    else
      { product := pname, batch_day := day, initial := 0, waste := 0, waste_pct := 0 })

structure Product where
  shelf_life : ℕ
  production_plan : List (ℕ × ℚ)
deriving DecidableEq

structure ProductResult where
  purchases : List PurchaseRec
  waste_rows : List WasteRec
  inventory_log : List SnapRec
deriving DecidableEq

def productResult (pname : String) (p : Product) (dists : List Distributor)
    (rate : ℚ) (total_days : ℕ) : ProductResult :=
  let st := runProduct pname p.shelf_life p.production_plan dists rate total_days
  { purchases := st.purchases,
    waste_rows := wasteRows pname p.production_plan st.waste total_days,
    inventory_log := st.inventory_log }

/-- The mutable fields of a `PerishableSupplyChain` object that
`run_simulation` touches (`all_results`, `total_transport_cost`,
`total_waste_cost`). -/
structure SelfState where
  all_results : List (String × ProductResult)
  total_transport_cost : ℚ
  total_waste_cost : ℚ
deriving DecidableEq

/-- `run_simulation`: resets `all_results`, `total_transport_cost` and
`total_waste_cost` (lines 29-31) and then rebuilds them from the
configuration alone.  `total_transport_cost` is accumulated per nonzero
allocation, which equals the sum of the `Transport_Cost` column. -/
def runSimulationFull (self : SelfState) (products : List (String × Product))
    (dists : List Distributor) (rate : ℚ) (total_days : ℕ) : SelfState :=
  let self1 : SelfState :=
    { self with all_results := [], total_transport_cost := 0, total_waste_cost := 0 }
  let results := products.map (fun pr => (pr.1, productResult pr.1 pr.2 dists rate total_days))
  { self1 with
    all_results := results,
    total_transport_cost :=
      self1.total_transport_cost +
        ((results.map (fun pr => ((pr.2.purchases.map (fun r => r.transport_cost)).sum))).sum) }

/-! ## The production optimizer (`optimize_production`)

The objective is linear in the decision variables `x[day]`, one non-negative
integer per day (modelled as `x : ℕ → ℕ`).  `objCoeff` is the coefficient of
`x[day]` exactly as the code builds it: a waste proxy term
`waste_cost_per_unit * 0.1` (the constants are hard-coded locals:
`transport_rate = 0.01`, `waste_cost_per_unit = 1.0`) plus, per distributor,
`proportion * 0.01` for each day `d` in
`range(day, min(day + policy_days, sim_days + 1))` with `d % 7 != 0`. -/

def wasteCostPerUnit : ℚ := 1

def wasteProxyFraction : ℚ := 1 / 10

/-- The hard-coded local `transport_rate = 0.01` in `optimize_production`. -/
def cbcTransportRate : ℚ := 1 / 100

def optDays (sim_days : ℕ) : List ℕ := List.range' 1 sim_days

def objCoeff (dists : List Distributor) (sim_days day : ℕ) : ℚ :=
  wasteCostPerUnit * wasteProxyFraction +
    (dists.map (fun dist =>
      (((List.range' day (min (day + dist.policy_days) (sim_days + 1) - day)).filter
          (fun d => decide (d % 7 ≠ 0))).length : ℚ) *
        dist.proportion * cbcTransportRate)).sum

/-- Total objective value of an assignment of production quantities. -/
def optCost (dists : List Distributor) (sim_days : ℕ) (x : ℕ → ℕ) : ℚ :=
  ((optDays sim_days).map (fun day => objCoeff dists sim_days day * (x day : ℚ))).sum

/-- The only constraints: non-negativity and integrality (by the type of `x`)
and `x[day] == 0` whenever `day % 7 == 0`. -/
def optFeasible (sim_days : ℕ) (x : ℕ → ℕ) : Prop :=
  ∀ day ∈ optDays sim_days, day % 7 = 0 → x day = 0

/-- `x` solves the integer program: feasible and of minimal cost. -/
def optOptimal (dists : List Distributor) (sim_days : ℕ) (x : ℕ → ℕ) : Prop :=
  optFeasible sim_days x ∧
    ∀ y : ℕ → ℕ, optFeasible sim_days y →
      optCost dists sim_days x ≤ optCost dists sim_days y

/-- `int(x[day].varValue or 0)`: the CBC solver is modelled as an oracle
`sol` giving each variable's `varValue` (`none` when the solver produced no
solution). -/
def recommendation (sol : ℕ → Option ℚ) (sim_days : ℕ) : List (ℕ × ℤ) :=
  (optDays sim_days).map (fun day => (day, pyInt ((sol day).getD 0)))


/-! ## Accounting functions used to state conservation -/

/-- Total quantity the purchase ledger records against batch `bd`. -/
def allocTo (prs : List PurchaseRec) (bd : ℕ) : ℚ :=
  ((prs.filter (fun r => decide (r.batch_day = bd))).map (fun r => r.quantity)).sum

/-- Remaining quantity the ledger holds for batch `bd` (0 if removed). -/
def currOf (bs : List (ℕ × Batch)) (bd : ℕ) : ℚ :=
  ((bs.filter (fun pb => decide (pb.1 = bd))).map (fun pb => pb.2.current)).sum

/-- Waste recorded against batch `bd` (0 if it never expired). -/
def wasteOf (ws : List (ℕ × ℚ)) (bd : ℕ) : ℚ :=
  ((ws.filter (fun pw => decide (pw.1 = bd))).map (fun pw => pw.2)).sum

/-- Everything `run_simulation` guarantees about a single purchase row
produced for distributor `dist` (guards of lines 72-93 and the
`share > 0` checks). -/
def RecOK (pname : String) (dist : Distributor) (r : PurchaseRec) : Prop :=
  r.product = pname ∧ r.distributor = dist.name ∧ r.day % 7 ≠ 0 ∧
    r.day ≤ dist.purchase_days.length ∧
    dist.purchase_days.getD (r.day - 1) false = true ∧
    r.policy = dist.policy_days ∧ r.shelf_age < (r.policy : ℤ) ∧
    0 < r.quantity ∧ r.proportion = pyRound2 dist.proportion

/-- The purchased batch existed in the ledger with positive stock at
allocation time, and the allocation did not exceed that stock. -/
def StockOK (st : SimState) (r : PurchaseRec) : Prop :=
  ∃ pb ∈ st.batches, pb.1 = r.batch_day ∧ 0 < pb.2.current ∧ r.quantity ≤ pb.2.current

/-! ## The optimizer objective as the spec words it

`specObjCoeff` is modelled from the spec's words (section 4.4): coefficient
of `production[day]` is `waste_cost_per_unit × waste_proxy_fraction` plus,
per distributor, `proportion × transport_rate` for every day in the
half-open interval `[day, day + policy_window)` that is not a closure day —
the interval uncapped by the horizon, and `transport_rate` the configured
scalar rate.  `specObjCoeffCapped` is the same formula amended by what the
code actually does: interval capped at `sim_days + 1`, hard-coded rate. -/

def specObjCoeff (wasteCost wasteFrac rate : ℚ) (dists : List Distributor)
    (day : ℕ) : ℚ :=
  wasteCost * wasteFrac +
    (dists.map (fun dist =>
      ((((Finset.Ico day (day + dist.policy_days)).filter
          (fun d => d % 7 ≠ 0)).card : ℚ)) * dist.proportion * rate)).sum

def specObjCoeffCapped (dists : List Distributor) (sim_days day : ℕ) : ℚ :=
  wasteCostPerUnit * wasteProxyFraction +
    (dists.map (fun dist =>
      ((((Finset.Ico day (min (day + dist.policy_days) (sim_days + 1))).filter
          (fun d => d % 7 ≠ 0)).card : ℚ)) * dist.proportion * cbcTransportRate)).sum

/-! ## Concrete configurations used by the scenario, counterexamples and
witnesses -/

/-- The distributor of the spec's worked scenario (policy window 2,
proportion 0.5, buys every day, distance 10). -/
def distC5 : Distributor :=
  { name := "D", policy_days := 2, proportion := 1/2, distance_km := 10,
    purchase_days := [true, true, true, true, true], preferred_products := ["P"] }

def prodC5 : Product := { shelf_life := 3, production_plan := [(1, 100)] }

/-- Distributor with proportion 0.55 and policy window 4, buying on day 4
only. -/
def distCE1 : Distributor :=
  { name := "D", policy_days := 4, proportion := 11/20, distance_km := 1,
    purchase_days := [false, false, false, true], preferred_products := ["P"] }

def planCE1 : List (ℕ × ℚ) := [(1, 10), (2, 10), (3, 10), (4, 1)]

/-- The ledger state reached on day 4 of `runProduct "P" 9 planCE1 [distCE1]`
just before allocation (shelf life 9, so nothing has expired). -/
def stCE1 : SimState :=
  { batches := [(1, { initial := 10, current := 10, expiry := 9 }),
                (2, { initial := 10, current := 10, expiry := 10 }),
                (3, { initial := 10, current := 10, expiry := 11 }),
                (4, { initial := 1, current := 1, expiry := 12 })],
    purchases := [], inventory_log := [], waste := [] }

/-- Distributor with proportion 0.5 and policy window 2, buying on day 2
only. -/
def distCE3 : Distributor :=
  { name := "D", policy_days := 2, proportion := 1/2, distance_km := 1,
    purchase_days := [false, true], preferred_products := ["P"] }

/-- State on day 1 of the scenario run, before the day-1 allocation. -/
def stC3W : SimState :=
  { batches := [(1, { initial := 100, current := 100, expiry := 3 })],
    purchases := [], inventory_log := [], waste := [] }

def distCE6 : Distributor :=
  { name := "D", policy_days := 3, proportion := 1/2, distance_km := 1,
    purchase_days := [true, true], preferred_products := ["P"] }

def distCE6b : Distributor :=
  { name := "D", policy_days := 1, proportion := 1/2, distance_km := 1,
    purchase_days := [true], preferred_products := ["P"] }

/-- The running invariant of one product's day loop after `k` simulated
days: batch keys are the creation days (1..k, duplicate-free), every
recorded waste entry and purchase row refers to a batch created by day `k`,
`0 ≤ current ≤ initial` for every live batch, and conservation holds —
for every production day with positive planned quantity the plan quantity
splits exactly into allocated + wasted + remaining. -/
def SimInv (plan : List (ℕ × ℚ)) (k : ℕ) (st : SimState) : Prop :=
  (∀ pb ∈ st.batches, 1 ≤ pb.1 ∧ pb.1 ≤ k) ∧
    (st.batches.map Prod.fst).Nodup ∧
    (∀ pw ∈ st.waste, pw.1 ≤ k) ∧
    (∀ r ∈ st.purchases, r.batch_day ≤ k) ∧
    (∀ pb ∈ st.batches, 0 ≤ pb.2.current ∧ pb.2.current ≤ pb.2.initial) ∧
    (∀ bd q, List.lookup bd plan = some q → 0 < q → 1 ≤ bd → bd ≤ k →
      q = allocTo st.purchases bd + wasteOf st.waste bd + currOf st.batches bd)

/-- A `PerishableSupplyChain` object whose mutable fields hold nothing. -/
def cleanSelf : SelfState :=
  { all_results := [], total_transport_cost := 0, total_waste_cost := 0 }

/-- The day-1 purchase row of the worked scenario. -/
def recW : PurchaseRec :=
  { product := "P", day := 1, distributor := "D", batch_day := 1,
    quantity := 50, shelf_age := 0, policy := 2, proportion := 1/2,
    transport_cost := 5 }

/-! ## Lemmas and theorems -/

theorem pyRound_nonneg {q : ℚ} (h : 0 ≤ q) : 0 ≤ pyRound q := by
  have hf : (0 : ℤ) ≤ ⌊q⌋ := Int.floor_nonneg.mpr h
  unfold pyRound
  split_ifs <;> omega

theorem pyRound_le_add_half (q : ℚ) : (pyRound q : ℚ) ≤ q + 1/2 := by
  have hf : (⌊q⌋ : ℚ) ≤ q := Int.floor_le q
  unfold pyRound
  split_ifs with h1 h2 h3
  · linarith
  · push_cast
    linarith
  · push_neg at h1 h2
    have hr : q - (⌊q⌋ : ℚ) = 1/2 := le_antisymm h2 h1
    linarith
  · push_neg at h1 h2
    have hr : q - (⌊q⌋ : ℚ) = 1/2 := le_antisymm h2 h1
    push_cast
    linarith

theorem pyRound_ge_sub_half (q : ℚ) : q - 1/2 ≤ (pyRound q : ℚ) := by
  have hf : (⌊q⌋ : ℚ) ≤ q := Int.floor_le q
  have hf1 : q < (⌊q⌋ : ℚ) + 1 := Int.lt_floor_add_one q
  unfold pyRound
  split_ifs with h1 h2 h3
  · linarith
  · push_cast
    linarith
  · push_neg at h1 h2
    have hr : q - (⌊q⌋ : ℚ) = 1/2 := le_antisymm h2 h1
    linarith
  · push_cast
    linarith

theorem pyRound_intCast (n : ℤ) : pyRound (n : ℚ) = n := by
  unfold pyRound
  simp

theorem pyRound2_nonneg {q : ℚ} (h : 0 ≤ q) : 0 ≤ pyRound2 q := by
  unfold pyRound2
  have : (0 : ℤ) ≤ pyRound (q * 100) := pyRound_nonneg (by positivity)
  positivity

theorem insertK_perm {α : Type} (x : ℕ × α) (l : List (ℕ × α)) :
    List.Perm (insertK x l) (x :: l) := by
  induction l with
  | nil => simp [insertK]
  | cons y ys ih =>
    simp only [insertK]
    split
    · exact ((ih.cons y).trans (List.Perm.swap x y ys))
    · exact List.Perm.refl _

theorem sortK_perm {α : Type} (l : List (ℕ × α)) : List.Perm (sortK l) l := by
  suffices h : ∀ (l acc : List (ℕ × α)),
      List.Perm (l.foldl (fun acc x => insertK x acc) acc) (acc ++ l) by
    simpa using h l []
  intro l
  induction l with
  | nil => simp
  | cons x xs ih =>
    intro acc
    simp only [List.foldl_cons]
    exact ((ih (insertK x acc)).trans
      (((insertK_perm x acc).append_right xs).trans List.perm_middle.symm))

theorem insertD_perm (x : Distributor) (l : List Distributor) :
    List.Perm (insertD x l) (x :: l) := by
  induction l with
  | nil => simp [insertD]
  | cons y ys ih =>
    simp only [insertD]
    split
    · exact ((ih.cons y).trans (List.Perm.swap x y ys))
    · exact List.Perm.refl _

theorem sortByPolicy_perm (l : List Distributor) : List.Perm (sortByPolicy l) l := by
  suffices h : ∀ (l acc : List Distributor),
      List.Perm (l.foldl (fun acc x => insertD x acc) acc) (acc ++ l) by
    simpa using h l []
  intro l
  induction l with
  | nil => simp
  | cons x xs ih =>
    intro acc
    simp only [List.foldl_cons]
    exact ((ih (insertD x acc)).trans
      (((insertD_perm x acc).append_right xs).trans List.perm_middle.symm))

theorem insertK_sorted {α : Type} (x : ℕ × α) (l : List (ℕ × α))
    (h : l.Pairwise (fun a b => a.1 ≤ b.1)) :
    (insertK x l).Pairwise (fun a b => a.1 ≤ b.1) := by
  induction l with
  | nil => simp [insertK]
  | cons y ys ih =>
    simp only [insertK]
    rcases h with _ | ⟨hy, hys⟩
    split
    · rename_i hle
      refine List.Pairwise.cons ?_ (ih hys)
      intro z hz
      have hz2 := (insertK_perm x ys).mem_iff.mp hz
      rcases List.mem_cons.mp hz2 with h | h
      · rw [h]; exact hle
      · exact hy z h
    · rename_i hlt
      push_neg at hlt
      exact List.Pairwise.cons
        (fun z hz => by
          rcases List.mem_cons.mp hz with h | h
          · rw [h]; exact le_of_lt hlt
          · exact le_trans (le_of_lt hlt) (hy z h))
        (List.Pairwise.cons hy hys)

theorem sortK_sorted {α : Type} (l : List (ℕ × α)) :
    (sortK l).Pairwise (fun a b => a.1 ≤ b.1) := by
  suffices h : ∀ (l acc : List (ℕ × α)), acc.Pairwise (fun a b => a.1 ≤ b.1) →
      (l.foldl (fun acc x => insertK x acc) acc).Pairwise (fun a b => a.1 ≤ b.1) by
    exact h l [] (by simp)
  intro l
  induction l with
  | nil => intro acc h; simpa using h
  | cons x xs ih =>
    intro acc hacc
    simp only [List.foldl_cons]
    exact ih (insertK x acc) (insertK_sorted x acc hacc)

/-- The head of `sortK l` has the minimal key. -/
theorem sortK_head_min {α : Type} {l : List (ℕ × α)} {y : ℕ × α} {ys : List (ℕ × α)}
    (h : sortK l = y :: ys) : ∀ x ∈ l, y.1 ≤ x.1 := by
  intro x hx
  have hx' : x ∈ sortK l := (sortK_perm l).symm.subset hx
  rw [h] at hx'
  rcases List.mem_cons.mp hx' with h2 | h2
  · rw [h2]
  · have hs := sortK_sorted l
    rw [h] at hs
    exact (List.pairwise_cons.mp hs).1 x h2

theorem distributeShares_fst_curr (A T : ℚ) :
    ∀ (l : List (ℕ × ℚ)) (rem : ℚ),
      (distributeShares A T l rem).map (fun t => (t.1, t.2.1)) = l := by
  intro l
  induction l with
  | nil => intro rem; rfl
  | cons x xs ih =>
    intro rem
    rcases x with ⟨d, c⟩
    cases xs with
    | nil => rfl
    | cons y ys =>
      simp only [distributeShares, List.map_cons]
      rw [ih]

theorem distributeShares_share_le_curr (A T : ℚ) :
    ∀ (l : List (ℕ × ℚ)) (rem : ℚ),
      ∀ t ∈ distributeShares A T l rem, t.2.2 ≤ t.2.1 := by
  intro l
  induction l with
  | nil => intro rem t ht; simp [distributeShares] at ht
  | cons x xs ih =>
    intro rem t ht
    rcases x with ⟨d, c⟩
    cases xs with
    | nil =>
      simp only [distributeShares, List.mem_singleton] at ht
      subst ht
      exact min_le_right _ _
    | cons y ys =>
      simp only [distributeShares, List.mem_cons] at ht
      rcases ht with h | h
      · subst h
        exact le_trans (min_le_left _ _) (min_le_right _ _)
      · exact ih _ t h

theorem distributeShares_share_nonneg (A T : ℚ) (hA : 0 ≤ A) (hT : 0 ≤ T) :
    ∀ (l : List (ℕ × ℚ)) (rem : ℚ), 0 ≤ rem → (∀ p ∈ l, 0 ≤ p.2) →
      ∀ t ∈ distributeShares A T l rem, 0 ≤ t.2.2 := by
  intro l
  induction l with
  | nil => intro rem _ _ t ht; simp [distributeShares] at ht
  | cons x xs ih =>
    intro rem hrem hc t ht
    rcases x with ⟨d, c⟩
    have hc0 : (0 : ℚ) ≤ c := hc (d, c) (List.mem_cons_self _ _)
    cases xs with
    | nil =>
      simp only [distributeShares, List.mem_singleton] at ht
      subst ht
      exact le_min hrem hc0
    | cons y ys =>
      simp only [distributeShares, List.mem_cons] at ht
      have hs0 : (0 : ℚ) ≤ ((pyRound (c / A * T) : ℤ) : ℚ) := by
        have : (0 : ℚ) ≤ c / A * T := mul_nonneg (div_nonneg hc0 hA) hT
        exact_mod_cast pyRound_nonneg this
      rcases ht with h | h
      · subst h
        exact le_min (le_min hs0 hc0) hrem
      · refine ih _ ?_ (fun p hp => hc p (List.mem_cons_of_mem _ hp)) t h
        have hsle : min (min ((pyRound (c / A * T) : ℤ) : ℚ) c) rem ≤ rem :=
          min_le_right _ _
        have hsnn : (0 : ℚ) ≤ min (min ((pyRound (c / A * T) : ℤ) : ℚ) c) rem :=
          le_min (le_min hs0 hc0) hrem
        linarith [hsle]

theorem distributeShares_sum_le (A T : ℚ) :
    ∀ (l : List (ℕ × ℚ)) (rem : ℚ), 0 ≤ rem →
      ((distributeShares A T l rem).map (fun t => t.2.2)).sum ≤ rem := by
  intro l
  induction l with
  | nil => intro rem hrem; simpa [distributeShares] using hrem
  | cons x xs ih =>
    intro rem hrem
    rcases x with ⟨d, c⟩
    cases xs with
    | nil =>
      simp only [distributeShares, List.map_cons, List.map_nil, List.sum_cons,
        List.sum_nil, add_zero]
      exact min_le_left _ _
    | cons y ys =>
      simp only [distributeShares, List.map_cons, List.sum_cons]
      have hsle : min (min ((pyRound (c / A * T) : ℤ) : ℚ) c) rem ≤ rem :=
        min_le_right _ _
      have h2 := ih (rem - min (min ((pyRound (c / A * T) : ℤ) : ℚ) c) rem)
        (by linarith)
      linarith


theorem Ico_filter_card_eq_length (a b : ℕ) :
    (((Finset.Ico a b).filter (fun d => d % 7 ≠ 0)).card : ℚ) =
      (((List.range' a (b - a)).filter (fun d => decide (d % 7 ≠ 0))).length : ℚ) := by
  rw [Nat.Ico_eq_range']
  rfl

/-- **C5**: the spec's worked scenario.  One product with shelf life 3 and
production plan `{1: 100}`; one distributor with policy window 2, proportion
0.5, purchasing every day except closure days, distance 10; transport rate
0.01; horizon 5.  Day 1 sells 50 (batch remaining 50), day 2 sells 25
(remaining 25), the batch expires on day 3 with 25 waste; total purchased 75,
waste 25, waste percentage 25.0. -/
theorem c5_scenario :
    ((productResult "P" prodC5 [distC5] (1/100) 5).purchases.map
        (fun r => (r.day, r.batch_day, r.quantity)) = [(1, 1, 50), (2, 1, 25)]) ∧
    (((productResult "P" prodC5 [distC5] (1/100) 5).purchases.map
        (fun r => r.quantity)).sum = 75) ∧
    ((productResult "P" prodC5 [distC5] (1/100) 5).inventory_log =
      [{ day := 1, phase := "Start", qty := [(1, 100)] },
       { day := 1, phase := "End", qty := [(1, 50)] },
       { day := 2, phase := "Start", qty := [(1, 50)] },
       { day := 2, phase := "End", qty := [(1, 25)] },
       { day := 3, phase := "Start", qty := [(1, 25)] },
       { day := 3, phase := "End", qty := [] },
       { day := 4, phase := "Start", qty := [] },
       { day := 4, phase := "End", qty := [] },
       { day := 5, phase := "Start", qty := [] },
       { day := 5, phase := "End", qty := [] }]) ∧
    ((runProduct "P" prodC5.shelf_life prodC5.production_plan [distC5] (1/100) 5).waste
        = [(1, 25)]) ∧
    ((productResult "P" prodC5 [distC5] (1/100) 5).waste_rows =
      [{ product := "P", batch_day := 1, initial := 100, waste := 25, waste_pct := 25 },
       { product := "P", batch_day := 2, initial := 0, waste := 0, waste_pct := 0 },
       { product := "P", batch_day := 3, initial := 0, waste := 0, waste_pct := 0 },
       { product := "P", batch_day := 4, initial := 0, waste := 0, waste_pct := 0 },
       { product := "P", batch_day := 5, initial := 0, waste := 0, waste_pct := 0 }]) := by
  with_unfolding_all decide

/-- **C10**: the simulation is deterministic.  `run_simulation` resets the
object's mutable accumulators before the loop (lines 29-31), so its output —
purchase, waste and inventory-snapshot tables and the transport-cost total —
is a function of the configuration alone: two runs from arbitrary prior
object states produce identical results. -/
theorem c10_deterministic (s₁ s₂ : SelfState) (products : List (String × Product))
    (dists : List Distributor) (rate : ℚ) (total_days : ℕ) :
    runSimulationFull s₁ products dists rate total_days =
      runSimulationFull s₂ products dists rate total_days := rfl

/-- **C9**: when the solver returns no solution (`varValue` is `None` for
every variable), `optimize_production`'s `int(x[day].varValue or 0)` yields
the all-zero recommendation for every day instead of failing. -/
theorem c9_solver_no_solution (sol : ℕ → Option ℚ) (sim_days : ℕ)
    (h : ∀ d, sol d = none) :
    recommendation sol sim_days = (optDays sim_days).map (fun d => (d, 0)) := by
  unfold recommendation
  simp [h, pyInt]

theorem c9_witness :
    (∀ d : ℕ, (fun _ : ℕ => (none : Option ℚ)) d = none) ∧
      recommendation (fun _ : ℕ => (none : Option ℚ)) 3 = [(1, 0), (2, 0), (3, 0)] :=
  ⟨fun _ => rfl,
    (c9_solver_no_solution (fun _ : ℕ => (none : Option ℚ)) 3 (fun _ => rfl)).trans
      (by with_unfolding_all decide)⟩

/-- **C6, counterexample**: the optimizer's objective coefficient differs
from the spec's formula.  With one distributor (policy window 3, proportion
0.5) and horizon 2, the code's coefficient of `production[2]` counts only the
in-horizon day 2 (`range(day, min(day + policy_days, sim_days + 1))`), giving
0.105, while the spec's interval `[2, 2+3)` gives 0.115; and with policy
window 1 the code uses its hard-coded local `transport_rate = 0.01`, so a
configured rate of 0.02 is ignored. -/
theorem c6_counterexample :
    (objCoeff [distCE6] 2 2 ≠
        specObjCoeff wasteCostPerUnit wasteProxyFraction cbcTransportRate [distCE6] 2) ∧
      (objCoeff [distCE6b] 1 1 ≠
        specObjCoeff wasteCostPerUnit wasteProxyFraction (2/100) [distCE6b] 1) := by
  with_unfolding_all decide

/-- **C6, amended**: the optimizer's objective coefficient of
`production[day]` is `waste_cost_per_unit × 0.1` plus, for every distributor,
`proportion × 0.01` (the hard-coded local transport rate — the configured
scalar rate is ignored) for every non-closure day in the half-open interval
`[day, min(day + policy_window, sim_days + 1))`, i.e. truncated at the
simulation horizon. -/
theorem c6_amended_objective (dists : List Distributor) (sim_days day : ℕ) :
    objCoeff dists sim_days day = specObjCoeffCapped dists sim_days day := by
  unfold objCoeff specObjCoeffCapped
  congr 1

/-- **C1, counterexample**: the sum of one distributor's per-batch
allocations on one day need not equal `round(proportion × total_available)`.
With batches of 10, 10, 10, 1 (oldest to newest), proportion 0.55 and policy
window 4, `total_available = 31` and `round(0.55 × 31) = 17`, but each of the
three older batches gets `round(10/31 × 17) = 5` and the last batch can only
absorb `min(17 - 15, 1) = 1`: the allocations sum to 16.  The same happens in
the full simulation run that reaches exactly this state on day 4. -/
theorem c1_counterexample :
    (((distributorStep "P" (1/100) 4 stCE1 distCE1).purchases.map
        (fun r => r.quantity)).sum = 16) ∧
      (pyRound (pyRound2 distCE1.proportion * totalAvailable 4 distCE1 stCE1) = 17) ∧
      (((runProduct "P" 9 planCE1 [distCE1] (1/100) 4).purchases.map
        (fun r => r.quantity)).sum = 16) ∧
      ((runProduct "P" 9 planCE1 [distCE1] (1/100) 4).inventory_log.getD 6
          { day := 0, phase := "", qty := [] } =
        { day := 4, phase := "Start", qty := [(1, 10), (2, 10), (3, 10), (4, 1)] }) := by
  with_unfolding_all decide

/-- **C3, counterexample**: the oldest eligible batch can be skipped while a
younger one is drawn down.  On day 2 with batches `{1: 1, 2: 100}` (both
eligible for policy window 2, both with stock), proportion 0.5 gives
`total_purchase = round(0.5 × 101) = 50` (banker's rounding) and the oldest
batch's share `round(1/101 × 50) = 0`: it is allocated nothing while the
younger batch sells 50, as both the single distributor step and the full run
show (the oldest batch survives with its stock of 1 intact). -/
theorem c3_counterexample :
    (validBatches 2 distCE3.policy_days
        [(1, { initial := 1, current := 1, expiry := 9 }),
         (2, { initial := 100, current := 100, expiry := 10 })] =
      [(1, { initial := 1, current := 1, expiry := 9 }),
       (2, { initial := 100, current := 100, expiry := 10 })]) ∧
      ((distributorStep "P" (1/100) 2
          { batches := [(1, { initial := 1, current := 1, expiry := 9 }),
                        (2, { initial := 100, current := 100, expiry := 10 })],
            purchases := [], inventory_log := [], waste := [] }
          distCE3).purchases.map (fun r => (r.batch_day, r.quantity)) = [(2, 50)]) ∧
      ((runProduct "P" 9 [(1, 1), (2, 100)] [distCE3] (1/100) 2).purchases.map
        (fun r => (r.batch_day, r.quantity)) = [(2, 50)]) ∧
      ((runProduct "P" 9 [(1, 1), (2, 100)] [distCE3] (1/100) 2).batches.map
        (fun pb => (pb.1, pb.2.current)) = [(1, 1), (2, 50)]) := by
  with_unfolding_all decide

theorem objCoeff_ge (dists : List Distributor) (sim_days day : ℕ)
    (hp : ∀ dist ∈ dists, 0 ≤ dist.proportion) :
    wasteCostPerUnit * wasteProxyFraction ≤ objCoeff dists sim_days day := by
  unfold objCoeff
  have h : 0 ≤ (dists.map (fun dist =>
      (((List.range' day (min (day + dist.policy_days) (sim_days + 1) - day)).filter
          (fun d => decide (d % 7 ≠ 0))).length : ℚ) *
        dist.proportion * cbcTransportRate)).sum := by
    apply List.sum_nonneg
    intro a ha
    obtain ⟨dist, hdist, rfl⟩ := List.mem_map.mp ha
    have h1 : (0 : ℚ) ≤ dist.proportion := hp dist hdist
    have h2 : (0 : ℚ) ≤ cbcTransportRate := by norm_num [cbcTransportRate]
    positivity
  linarith

/-- **C2**: for every configuration with the spec-allowed non-negative
proportions, the integer program built by `optimize_production` has the
all-zero plan as its unique optimum — every day's objective coefficient is at
least `waste_cost_per_unit × 0.1 > 0` and the constraints are only
non-negativity, integrality and closure-day zeroing — so the recommendation
(an optimal solution reported by the solver) is 0 for every day
`1..sim_days`. -/
theorem c2_optimizer_all_zero (dists : List Distributor) (sim_days : ℕ)
    (hp : ∀ dist ∈ dists, 0 ≤ dist.proportion) (x : ℕ → ℕ)
    (hx : optOptimal dists sim_days x) :
    (∀ day ∈ optDays sim_days, x day = 0) ∧
      (∀ day : ℕ, wasteCostPerUnit * wasteProxyFraction ≤ objCoeff dists sim_days day) := by
  refine ⟨?_, fun day => objCoeff_ge dists sim_days day hp⟩
  have hzero : optCost dists sim_days (fun _ => 0) = 0 := by
    simp [optCost]
  have hfeas0 : optFeasible sim_days (fun _ => 0) := fun _ _ _ => rfl
  have hle : optCost dists sim_days x ≤ 0 := hzero ▸ hx.2 (fun _ => 0) hfeas0
  have hterm : ∀ a ∈ (optDays sim_days).map
      (fun day => objCoeff dists sim_days day * (x day : ℚ)), 0 ≤ a := by
    intro a ha
    obtain ⟨day, hday, rfl⟩ := List.mem_map.mp ha
    have h1 := objCoeff_ge dists sim_days day hp
    have h2 : (0 : ℚ) < wasteCostPerUnit * wasteProxyFraction := by
      norm_num [wasteCostPerUnit, wasteProxyFraction]
    have h3 : (0 : ℚ) ≤ (x day : ℚ) := Nat.cast_nonneg _
    nlinarith
  intro day hday
  have hmem : objCoeff dists sim_days day * (x day : ℚ) ∈ (optDays sim_days).map
      (fun day => objCoeff dists sim_days day * (x day : ℚ)) :=
    List.mem_map.mpr ⟨day, hday, rfl⟩
  have h4 : objCoeff dists sim_days day * (x day : ℚ) ≤ 0 :=
    le_trans (List.single_le_sum hterm _ hmem) hle
  have h5 : objCoeff dists sim_days day * (x day : ℚ) = 0 :=
    le_antisymm h4 (hterm _ hmem)
  have h2 : (0 : ℚ) < objCoeff dists sim_days day := by
    have := objCoeff_ge dists sim_days day hp
    have h6 : (0 : ℚ) < wasteCostPerUnit * wasteProxyFraction := by
      norm_num [wasteCostPerUnit, wasteProxyFraction]
    linarith
  have h7 : (x day : ℚ) = 0 := by
    rcases mul_eq_zero.mp h5 with h | h
    · exact absurd h (ne_of_gt h2)
    · exact h
  exact_mod_cast h7

theorem c2_witness :
    (∀ dist ∈ [distCE6b], (0 : ℚ) ≤ dist.proportion) ∧
      optOptimal [distCE6b] 2 (fun _ => 0) ∧
      ((∀ day ∈ optDays 2, (fun _ : ℕ => 0) day = 0) ∧
        (∀ day : ℕ, wasteCostPerUnit * wasteProxyFraction ≤ objCoeff [distCE6b] 2 day)) := by
  have hp : ∀ dist ∈ [distCE6b], (0 : ℚ) ≤ dist.proportion := by
    intro dist hdist
    rcases List.mem_singleton.mp hdist with rfl
    norm_num [distCE6b]
  have hopt : optOptimal [distCE6b] 2 (fun _ => 0) := by
    constructor
    · intro day _ _
      rfl
    · intro y _
      have h0 : optCost [distCE6b] 2 (fun _ => 0) = 0 := by simp [optCost]
      rw [h0]
      apply List.sum_nonneg
      intro a ha
      obtain ⟨day, hday, rfl⟩ := List.mem_map.mp ha
      have h1 := objCoeff_ge [distCE6b] 2 day hp
      have h2 : (0 : ℚ) < wasteCostPerUnit * wasteProxyFraction := by
        norm_num [wasteCostPerUnit, wasteProxyFraction]
      have h3 : (0 : ℚ) ≤ (y day : ℚ) := Nat.cast_nonneg _
      nlinarith
  exact ⟨hp, hopt, c2_optimizer_all_zero [distCE6b] 2 hp (fun _ => 0) hopt⟩

theorem mem_validBatches {day policy : ℕ} {bs : List (ℕ × Batch)} {pb : ℕ × Batch}
    (h : pb ∈ validBatches day policy bs) :
    pb ∈ bs ∧ (day : ℤ) - pb.1 < (policy : ℤ) ∧ 0 < pb.2.current := by
  unfold validBatches at h
  have h2 := List.mem_filter.mp h
  refine ⟨h2.1, ?_, ?_⟩
  · have := h2.2
    simp only [Bool.and_eq_true, decide_eq_true_eq] at this
    exact this.1
  · have := h2.2
    simp only [Bool.and_eq_true, decide_eq_true_eq] at this
    exact this.2

/-- Every share triple corresponds to a valid batch: same batch day, the
batch's stock at allocation time, a share bounded by that stock. -/
theorem shares_to_valid {day policy : ℕ} {bs : List (ℕ × Batch)} {A T rem : ℚ}
    {t : ℕ × ℚ × ℚ}
    (ht : t ∈ distributeShares A T
      (sortK ((validBatches day policy bs).map (fun pb => (pb.1, pb.2.current)))) rem) :
    ∃ pb ∈ bs, pb.1 = t.1 ∧ pb.2.current = t.2.1 ∧ 0 < pb.2.current ∧
      (day : ℤ) - pb.1 < (policy : ℤ) ∧ t.2.2 ≤ t.2.1 := by
  have hmap : (t.1, t.2.1) ∈
      sortK ((validBatches day policy bs).map (fun pb => (pb.1, pb.2.current))) := by
    have := distributeShares_fst_curr A T
      (sortK ((validBatches day policy bs).map (fun pb => (pb.1, pb.2.current)))) rem
    rw [← this]
    exact List.mem_map.mpr ⟨t, ht, rfl⟩
  have hmem : (t.1, t.2.1) ∈
      (validBatches day policy bs).map (fun pb => (pb.1, pb.2.current)) :=
    (sortK_perm _).subset hmap
  obtain ⟨pb, hpb, heq⟩ := List.mem_map.mp hmem
  obtain ⟨hbs, hage, hpos⟩ := mem_validBatches hpb
  have h1 : pb.1 = t.1 := congrArg Prod.fst heq
  have h2 : pb.2.current = t.2.1 := congrArg Prod.snd heq
  exact ⟨pb, hbs, h1, h2, hpos, hage,
    distributeShares_share_le_curr A T _ rem t ht⟩

/-- Any row `distributorStep` appends satisfies all purchase-row guarantees:
it is for this day and distributor, the day passed the calendar and closure
checks, age is within the policy window, the quantity is positive and fits in
the batch's stock. -/
theorem distributorStep_purchases_ok (pname : String) (rate : ℚ) (day : ℕ)
    (st : SimState) (dist : Distributor) :
    ∀ r ∈ (distributorStep pname rate day st dist).purchases,
      r ∈ st.purchases ∨ (r.day = day ∧ RecOK pname dist r ∧ StockOK st r) := by
  intro r hr
  simp only [distributorStep] at hr
  split at hr
  · exact Or.inl hr
  · split at hr
    · exact Or.inl hr
    · split at hr
      · exact Or.inl hr
      · rename_i hpref hguard hne
        simp only [SimState.mk.injEq] at hr
        rcases List.mem_append.mp hr with h | h
        · exact Or.inl h
        · right
          push_neg at hguard
          obtain ⟨hlen, hcal, h7⟩ := hguard
          obtain ⟨t, htf, rfl⟩ := List.mem_map.mp h
          have ht := List.mem_filter.mp htf
          have htq : (0 : ℚ) < t.2.2 := by
            have := ht.2
            simpa using this
          obtain ⟨pb, hbs, h1, h2, hpos, hage, hle⟩ := shares_to_valid ht.1
          refine ⟨rfl, ⟨rfl, rfl, ?_, ?_, ?_, rfl, ?_, htq, rfl⟩, ?_⟩
          · exact h7
          · show day ≤ dist.purchase_days.length
            omega
          · exact Bool.not_eq_false _ |>.mp hcal
          · show (day : ℤ) - t.1 < (dist.policy_days : ℤ)
            rw [← h1]
            exact hage
          · exact ⟨pb, hbs, h1, hpos, by rw [h2]; exact hle⟩

theorem filterMap_keys_sublist (f : (ℕ × Batch) → Option (ℕ × Batch))
    (hf : ∀ pb x, f pb = some x → x.1 = pb.1) (bs : List (ℕ × Batch)) :
    ((bs.filterMap f).map Prod.fst).Sublist (bs.map Prod.fst) := by
  induction bs with
  | nil => simp
  | cons pb bs ih =>
    cases h : f pb with
    | none =>
      simp only [List.filterMap_cons, h, List.map_cons]
      exact ih.cons pb.1
    | some x =>
      simp only [List.filterMap_cons, h, List.map_cons]
      rw [hf pb x h]
      exact ih.cons₂ pb.1

theorem applyShares_keys_sublist (sm : List (ℕ × ℚ)) (bs : List (ℕ × Batch)) :
    ((applyShares sm bs).map Prod.fst).Sublist (bs.map Prod.fst) := by
  apply filterMap_keys_sublist
  intro pb x
  dsimp only
  cases List.lookup pb.1 sm with
  | none =>
    intro hx
    cases hx
    rfl
  | some s =>
    intro hx
    dsimp only at hx
    by_cases hc : pb.2.current - s ≤ 0
    · rw [if_pos hc] at hx
      cases hx
    · rw [if_neg hc] at hx
      cases hx
      rfl

theorem distributorStep_keys_sublist (pname : String) (rate : ℚ) (day : ℕ)
    (st : SimState) (dist : Distributor) :
    (((distributorStep pname rate day st dist).batches).map Prod.fst).Sublist
      (st.batches.map Prod.fst) := by
  simp only [distributorStep]
  split
  · exact List.Sublist.refl _
  · split
    · exact List.Sublist.refl _
    · split
      · exact List.Sublist.refl _
      · exact applyShares_keys_sublist _ _

/-- Purchase-row guarantees propagate through the whole distributor loop of
one day. -/
theorem foldl_distributorStep_purchases (pname : String) (rate : ℚ) (day : ℕ)
    (ds : List Distributor) :
    ∀ st : SimState, ∀ r ∈ (ds.foldl (distributorStep pname rate day) st).purchases,
      r ∈ st.purchases ∨ (r.day = day ∧ ∃ dist ∈ ds, RecOK pname dist r ∧
        r.batch_day ∈ st.batches.map Prod.fst) := by
  induction ds with
  | nil => intro st r hr; exact Or.inl hr
  | cons d ds ih =>
    intro st r hr
    simp only [List.foldl_cons] at hr
    rcases ih (distributorStep pname rate day st d) r hr with h | h
    · rcases distributorStep_purchases_ok pname rate day st d r h with h2 | h2
      · exact Or.inl h2
      · refine Or.inr ⟨h2.1, d, List.mem_cons_self _ _, h2.2.1, ?_⟩
        obtain ⟨pb, hpb, hkey, _, _⟩ := h2.2.2
        exact hkey ▸ List.mem_map.mpr ⟨pb, hpb, rfl⟩
    · obtain ⟨hday, dist, hdist, hok, hbd⟩ := h
      refine Or.inr ⟨hday, dist, List.mem_cons_of_mem _ hdist, hok, ?_⟩
      exact (distributorStep_keys_sublist pname rate day st d).subset hbd

theorem expireStep_purchases (day : ℕ) (st : SimState) :
    (expireStep day st).purchases = st.purchases := rfl

/-- Purchase-row guarantees for one full day. -/
theorem dayStep_purchases_ok (pname : String) (plan : List (ℕ × ℚ))
    (shelf_life : ℕ) (dists : List Distributor) (rate : ℚ) (st : SimState)
    (day : ℕ) :
    ∀ r ∈ (dayStep pname plan shelf_life dists rate st day).purchases,
      r ∈ st.purchases ∨ (r.day = day ∧ ∃ dist ∈ dists, RecOK pname dist r) := by
  intro r hr
  simp only [dayStep] at hr
  rcases foldl_distributorStep_purchases pname rate day (sortByPolicy dists) _ r hr
    with h | h
  · exact Or.inl h
  · obtain ⟨hday, dist, hdist, hok, _⟩ := h
    exact Or.inr ⟨hday, dist, (sortByPolicy_perm dists).subset hdist, hok⟩

theorem runProduct_succ (pname : String) (shelf_life : ℕ) (plan : List (ℕ × ℚ))
    (dists : List Distributor) (rate : ℚ) (n : ℕ) :
    runProduct pname shelf_life plan dists rate (n + 1) =
      dayStep pname plan shelf_life dists rate
        (runProduct pname shelf_life plan dists rate n) (n + 1) := by
  unfold runProduct
  have h : 1 + 1 * n = n + 1 := by omega
  rw [List.range'_concat, h, List.foldl_append]
  simp

/-- Every purchase row of a product run was produced on some day `1..n` for
some configured distributor, with all row guarantees. -/
theorem runProduct_purchases_ok (pname : String) (shelf_life : ℕ)
    (plan : List (ℕ × ℚ)) (dists : List Distributor) (rate : ℚ) (n : ℕ) :
    ∀ r ∈ (runProduct pname shelf_life plan dists rate n).purchases,
      ∃ dist ∈ dists, RecOK pname dist r := by
  induction n with
  | zero => intro r hr; simp [runProduct, initState] at hr
  | succ n ih =>
    intro r hr
    rw [runProduct_succ] at hr
    rcases dayStep_purchases_ok pname plan shelf_life dists rate _ (n + 1) r hr
      with h | h
    · exact ih r h
    · exact ⟨h.2.choose, h.2.choose_spec.1, h.2.choose_spec.2⟩

/-- **C7**: no purchase row is ever produced on a weekly closure day
(`day % 7 == 0`) or on a day the purchasing distributor's calendar marks as
non-purchasing: every row's day satisfies `day % 7 ≠ 0`, is within that
distributor's calendar, and the calendar entry for it is `True`. -/
theorem c7_closure_days (s : SelfState) (products : List (String × Product))
    (dists : List Distributor) (rate : ℚ) (total_days : ℕ) :
    ∀ pr ∈ (runSimulationFull s products dists rate total_days).all_results,
      ∀ r ∈ pr.2.purchases,
        r.day % 7 ≠ 0 ∧ ∃ dist ∈ dists, r.distributor = dist.name ∧
          r.day ≤ dist.purchase_days.length ∧
          dist.purchase_days.getD (r.day - 1) false = true := by
  intro pr hpr r hr
  simp only [runSimulationFull] at hpr
  obtain ⟨np, hmem, rfl⟩ := List.mem_map.mp hpr
  obtain ⟨dist, hdist, hok⟩ := runProduct_purchases_ok np.1 np.2.shelf_life
    np.2.production_plan dists rate total_days r hr
  obtain ⟨_, hname, h7, hlen, hcal, _, _, _, _⟩ := hok
  exact ⟨h7, dist, hdist, hname, hlen, hcal⟩

theorem c7_witness :
    (("P", productResult "P" prodC5 [distC5] (1/100) 5) ∈
        (runSimulationFull cleanSelf [("P", prodC5)] [distC5] (1/100) 5).all_results) ∧
      (recW ∈ ("P", productResult "P" prodC5 [distC5] (1/100) 5).2.purchases) ∧
      (recW.day % 7 ≠ 0 ∧
        ∃ dist ∈ [distC5], recW.distributor = dist.name ∧
          recW.day ≤ dist.purchase_days.length ∧
          dist.purchase_days.getD (recW.day - 1) false = true) :=
  ⟨by with_unfolding_all decide, by with_unfolding_all decide,
    c7_closure_days cleanSelf [("P", prodC5)] [distC5] (1/100) 5
      ("P", productResult "P" prodC5 [distC5] (1/100) 5)
      (by with_unfolding_all decide) recW (by with_unfolding_all decide)⟩

/-- **C8**: every purchase row respects the purchasing distributor's policy
window — its shelf age is strictly below the row's recorded policy window
(the distributor's) and its quantity is positive; moreover, any row appended
by a distributor step draws on a batch that was in the ledger with positive
stock at allocation time, with the allocated quantity within that stock. -/
theorem c8_policy_window (s : SelfState) (products : List (String × Product))
    (dists : List Distributor) (rate : ℚ) (total_days : ℕ) :
    (∀ pr ∈ (runSimulationFull s products dists rate total_days).all_results,
        ∀ r ∈ pr.2.purchases, r.shelf_age < (r.policy : ℤ) ∧ 0 < r.quantity) ∧
      (∀ (pname : String) (rate2 : ℚ) (day : ℕ) (st : SimState)
          (dist : Distributor),
        ∀ r ∈ (distributorStep pname rate2 day st dist).purchases,
          r ∉ st.purchases → StockOK st r) := by
  constructor
  · intro pr hpr r hr
    simp only [runSimulationFull] at hpr
    obtain ⟨np, hmem, rfl⟩ := List.mem_map.mp hpr
    obtain ⟨dist, hdist, hok⟩ := runProduct_purchases_ok np.1 np.2.shelf_life
      np.2.production_plan dists rate total_days r hr
    obtain ⟨_, _, _, _, _, _, hage, hq, _⟩ := hok
    exact ⟨hage, hq⟩
  · intro pname rate2 day st dist r hr hnotin
    rcases distributorStep_purchases_ok pname rate2 day st dist r hr with h | h
    · exact absurd h hnotin
    · exact h.2.2

theorem c8_witness :
    (("P", productResult "P" prodC5 [distC5] (1/100) 5) ∈
        (runSimulationFull cleanSelf [("P", prodC5)] [distC5] (1/100) 5).all_results) ∧
      (recW ∈ ("P", productResult "P" prodC5 [distC5] (1/100) 5).2.purchases) ∧
      (recW.shelf_age < (recW.policy : ℤ) ∧ 0 < recW.quantity) :=
  ⟨by with_unfolding_all decide, by with_unfolding_all decide,
    (c8_policy_window cleanSelf [("P", prodC5)] [distC5] (1/100) 5).1
      ("P", productResult "P" prodC5 [distC5] (1/100) 5)
      (by with_unfolding_all decide) recW (by with_unfolding_all decide)⟩

theorem totalAvailable_nonneg (day : ℕ) (dist : Distributor) (st : SimState) :
    0 ≤ totalAvailable day dist st := by
  unfold totalAvailable
  apply List.sum_nonneg
  intro a ha
  obtain ⟨pb, hpb, rfl⟩ := List.mem_map.mp ha
  exact le_of_lt (mem_validBatches hpb).2.2

theorem sum_filter_pos_shares (l : List (ℕ × ℚ × ℚ)) (h : ∀ t ∈ l, 0 ≤ t.2.2) :
    ((l.filter (fun t => decide (0 < t.2.2))).map (fun t => t.2.2)).sum =
      (l.map (fun t => t.2.2)).sum := by
  induction l with
  | nil => rfl
  | cons t l ih =>
    have ht := h t (List.mem_cons_self _ _)
    have ih2 := ih (fun u hu => h u (List.mem_cons_of_mem _ hu))
    by_cases hpos : 0 < t.2.2
    · simp [List.filter_cons, hpos, ih2]
    · have hz : t.2.2 = 0 := le_antisymm (not_lt.mp hpos) ht
      simp [List.filter_cons, hpos, ih2, hz]

theorem valid_currents_nonneg (day policy : ℕ) (bs : List (ℕ × Batch)) :
    ∀ p ∈ sortK ((validBatches day policy bs).map (fun pb => (pb.1, pb.2.current))),
      0 ≤ p.2 := by
  intro p hp
  have hmem := (sortK_perm _).subset hp
  obtain ⟨pb, hpb, rfl⟩ := List.mem_map.mp hmem
  exact le_of_lt (mem_validBatches hpb).2.2

/-- **C1, amended**: for every day and distributor (over spec-allowed
non-negative proportions), the sum of the per-batch quantities allocated by
one distributor step is **at most** `round(proportion × total_available)` —
the last (newest) eligible batch absorbs the remaining unallocated amount
only up to its own stock, so the sum can fall short of the rounded request —
and every allocated quantity fits inside the stock that batch held at
allocation time. -/
theorem c1_amended_alloc_sum (pname : String) (rate : ℚ) (day : ℕ)
    (st : SimState) (dist : Distributor) (hp : 0 ≤ dist.proportion) :
    (((distributorStep pname rate day st dist).purchases.drop
        st.purchases.length).map (fun r => r.quantity)).sum ≤
      ((pyRound (pyRound2 dist.proportion * totalAvailable day dist st) : ℤ) : ℚ) ∧
      ∀ r ∈ (distributorStep pname rate day st dist).purchases.drop
        st.purchases.length, StockOK st r := by
  have hA : 0 ≤ totalAvailable day dist st := totalAvailable_nonneg day dist st
  have hT : (0 : ℚ) ≤
      ((pyRound (pyRound2 dist.proportion * totalAvailable day dist st) : ℤ) : ℚ) := by
    have h1 : 0 ≤ pyRound2 dist.proportion * totalAvailable day dist st :=
      mul_nonneg (pyRound2_nonneg hp) hA
    exact_mod_cast pyRound_nonneg h1
  simp only [distributorStep]
  split
  · simp [List.drop_length, hT]
  · split
    · simp [List.drop_length, hT]
    · split
      · simp [List.drop_length, hT]
      · rw [List.drop_left]
        constructor
        · rw [List.map_map]
          have hshape : ((fun r => r.quantity) ∘
              mkRec pname day dist (pyRound2 dist.proportion) rate) =
              fun t : ℕ × ℚ × ℚ => t.2.2 := rfl
          rw [hshape]
          have hnn := distributeShares_share_nonneg
            (totalAvailable day dist st)
            ((pyRound (pyRound2 dist.proportion * totalAvailable day dist st) : ℤ) : ℚ)
            hA hT
            (sortK ((validBatches day dist.policy_days st.batches).map
              (fun pb => (pb.1, pb.2.current))))
            ((pyRound (pyRound2 dist.proportion * totalAvailable day dist st) : ℤ) : ℚ)
            hT (valid_currents_nonneg day dist.policy_days st.batches)
          rw [sum_filter_pos_shares _ hnn]
          exact distributeShares_sum_le _ _ _ _ hT
        · intro r hr
          obtain ⟨t, htf, rfl⟩ := List.mem_map.mp hr
          have ht := List.mem_filter.mp htf
          obtain ⟨pb, hbs, h1, h2, hpos, _, hle⟩ := shares_to_valid ht.1
          exact ⟨pb, hbs, h1, hpos, by rw [h2]; exact hle⟩

theorem c1_amended_witness :
    ((0 : ℚ) ≤ distCE1.proportion) ∧
      ((((distributorStep "P" (1/100) 4 stCE1 distCE1).purchases.drop
          stCE1.purchases.length).map (fun r => r.quantity)).sum ≤
        ((pyRound (pyRound2 distCE1.proportion * totalAvailable 4 distCE1 stCE1) : ℤ) : ℚ) ∧
        ∀ r ∈ (distributorStep "P" (1/100) 4 stCE1 distCE1).purchases.drop
          stCE1.purchases.length, StockOK stCE1 r) :=
  ⟨by norm_num [distCE1],
    c1_amended_alloc_sum "P" (1/100) 4 stCE1 distCE1 (by norm_num [distCE1])⟩

/-- **C3, amended**: batches are processed oldest-first, and the oldest
eligible batch is never skipped **unless its own rounded proportional share
`round(current/total_available × total_purchase)` is zero**: whenever that
rounded share is at least 1, the processing of one distributor appends a
purchase row with positive quantity for the oldest eligible batch day. -/
theorem c3_amended_oldest (pname : String) (rate : ℚ) (day : ℕ) (st : SimState)
    (dist : Distributor) (d₀ : ℕ) (c₀ : ℚ) (rest : List (ℕ × ℚ))
    (hpref : pname ∈ dist.preferred_products)
    (hcal : ¬(dist.purchase_days.length < day ∨
      dist.purchase_days.getD (day - 1) false = false ∨ day % 7 = 0))
    (hsort : sortK ((validBatches day dist.policy_days st.batches).map
      (fun pb => (pb.1, pb.2.current))) = (d₀, c₀) :: rest)
    (hround : 1 ≤ pyRound (c₀ / totalAvailable day dist st *
      ((pyRound (pyRound2 dist.proportion * totalAvailable day dist st) : ℤ) : ℚ))) :
    (∀ pb ∈ validBatches day dist.policy_days st.batches, d₀ ≤ pb.1) ∧
      ∃ r ∈ (distributorStep pname rate day st dist).purchases,
        r.day = day ∧ r.batch_day = d₀ ∧ 0 < r.quantity := by
  set A := totalAvailable day dist st with hAdef
  set T : ℚ := ((pyRound (pyRound2 dist.proportion * A) : ℤ) : ℚ) with hTdef
  set L := sortK ((validBatches day dist.policy_days st.batches).map
    (fun pb => (pb.1, pb.2.current))) with hLdef
  -- the head of the sorted eligible list is the oldest batch
  have hmin : ∀ pb ∈ validBatches day dist.policy_days st.batches, d₀ ≤ pb.1 := by
    intro pb hpb
    have := sortK_head_min hsort (pb.1, pb.2.current) (List.mem_map.mpr ⟨pb, hpb, rfl⟩)
    exact this
  refine ⟨hmin, ?_⟩
  -- positivity facts
  have hc0 : 0 < c₀ := by
    have hmem : (d₀, c₀) ∈ L := by rw [hsort]; exact List.mem_cons_self _ _
    have hmem2 := (sortK_perm _).subset hmem
    obtain ⟨pb, hpb, heq⟩ := List.mem_map.mp hmem2
    have h2 : pb.2.current = c₀ := congrArg Prod.snd heq
    rw [← h2]
    exact (mem_validBatches hpb).2.2
  have hsumL : (L.map (fun p => p.2)).sum = A := by
    rw [hAdef]
    unfold totalAvailable
    have hp2 : List.Perm (L.map (fun p => p.2))
        (((validBatches day dist.policy_days st.batches).map
          (fun pb => (pb.1, pb.2.current))).map (fun p => p.2)) :=
      (sortK_perm _).map _
    rw [hp2.sum_eq, List.map_map]
    rfl
  have hrest_nn : ∀ p ∈ rest, (0 : ℚ) ≤ p.2 := by
    intro p hp
    exact valid_currents_nonneg day dist.policy_days st.batches p
      (by rw [← hLdef, hsort]; exact List.mem_cons_of_mem _ hp)
  have hcA : c₀ ≤ A := by
    rw [← hsumL, hsort]
    simp only [List.map_cons, List.sum_cons]
    have : 0 ≤ (rest.map (fun p => p.2)).sum := List.sum_nonneg (by
      intro a ha
      obtain ⟨p, hp, rfl⟩ := List.mem_map.mp ha
      exact hrest_nn p hp)
    linarith
  have hA0 : 0 < A := lt_of_lt_of_le hc0 hcA
  have hu : (1 : ℚ) ≤ c₀ / A * T + 1/2 := by
    have h1 : ((1 : ℤ) : ℚ) ≤ ((pyRound (c₀ / A * T) : ℤ) : ℚ) := by exact_mod_cast hround
    have h2 := pyRound_le_add_half (c₀ / A * T)
    linarith
  have hupos : 0 < c₀ / A * T := by linarith
  have hT0 : 0 < T := by
    by_contra h
    push_neg at h
    have h1 : 0 < c₀ / A := div_pos hc0 hA0
    nlinarith
  have hT1 : (1 : ℚ) ≤ T := by
    have hz : (0 : ℤ) < pyRound (pyRound2 dist.proportion * A) := by
      by_contra hzz
      push_neg at hzz
      have h3 : T ≤ 0 := by
        rw [hTdef]
        exact_mod_cast hzz
      linarith
    have h4 : (1 : ℤ) ≤ pyRound (pyRound2 dist.proportion * A) := hz
    rw [hTdef]
    exact_mod_cast h4
  -- the step's purchases are the old ones plus the rows for positive shares
  have hne : validBatches day dist.policy_days st.batches ≠ [] := by
    intro h
    have h2 : L = [] := by rw [hLdef, h]; rfl
    rw [hsort] at h2
    cases h2
  have hstep : (distributorStep pname rate day st dist).purchases =
      st.purchases ++ ((distributeShares A T L T).filter
        (fun t => decide (0 < t.2.2))).map
          (mkRec pname day dist (pyRound2 dist.proportion) rate) := by
    simp only [distributorStep]
    rw [if_neg (not_not_intro hpref), if_neg hcal,
      if_neg (by simpa [List.isEmpty_iff] using hne)]
  rw [hstep]
  -- the head share is positive
  have hhead : ∃ s₀ : ℚ, 0 < s₀ ∧ (d₀, c₀, s₀) ∈ distributeShares A T L T := by
    rw [hsort]
    cases rest with
    | nil =>
      refine ⟨min T c₀, lt_min hT0 hc0, ?_⟩
      simp [distributeShares]
    | cons p ps =>
      refine ⟨min (min ((pyRound (c₀ / A * T) : ℤ) : ℚ) c₀) T, ?_, ?_⟩
      · have h1 : (0 : ℚ) < ((pyRound (c₀ / A * T) : ℤ) : ℚ) := by
          have : (0 : ℤ) < pyRound (c₀ / A * T) := by omega
          exact_mod_cast this
        exact lt_min (lt_min h1 hc0) hT0
      · simp [distributeShares]
  obtain ⟨s₀, hs₀, hmem⟩ := hhead
  refine ⟨mkRec pname day dist (pyRound2 dist.proportion) rate (d₀, c₀, s₀), ?_, rfl, rfl, hs₀⟩
  apply List.mem_append_right
  exact List.mem_map.mpr ⟨(d₀, c₀, s₀), List.mem_filter.mpr ⟨hmem, by simpa using hs₀⟩, rfl⟩

theorem c3_amended_witness :
    ("P" ∈ distC5.preferred_products) ∧
      (¬(distC5.purchase_days.length < 1 ∨
        distC5.purchase_days.getD 0 false = false ∨ 1 % 7 = 0)) ∧
      (sortK ((validBatches 1 distC5.policy_days stC3W.batches).map
        (fun pb => (pb.1, pb.2.current))) = [(1, 100)]) ∧
      (1 ≤ pyRound ((100 : ℚ) / totalAvailable 1 distC5 stC3W *
        ((pyRound (pyRound2 distC5.proportion * totalAvailable 1 distC5 stC3W) : ℤ) : ℚ))) ∧
      ((∀ pb ∈ validBatches 1 distC5.policy_days stC3W.batches, 1 ≤ pb.1) ∧
        ∃ r ∈ (distributorStep "P" (1/100) 1 stC3W distC5).purchases,
          r.day = 1 ∧ r.batch_day = 1 ∧ 0 < r.quantity) :=
  ⟨by with_unfolding_all decide, by with_unfolding_all decide,
    by with_unfolding_all decide, by with_unfolding_all decide,
    c3_amended_oldest "P" (1/100) 1 stC3W distC5 1 100 []
      (by with_unfolding_all decide) (by with_unfolding_all decide)
      (by with_unfolding_all decide) (by with_unfolding_all decide)⟩

theorem currOf_cons (x : ℕ × Batch) (l : List (ℕ × Batch)) (bd : ℕ) :
    currOf (x :: l) bd = (if x.1 = bd then x.2.current else 0) + currOf l bd := by
  unfold currOf
  by_cases h : x.1 = bd <;> simp [List.filter_cons, h]

theorem wasteOf_cons (x : ℕ × ℚ) (l : List (ℕ × ℚ)) (bd : ℕ) :
    wasteOf (x :: l) bd = (if x.1 = bd then x.2 else 0) + wasteOf l bd := by
  unfold wasteOf
  by_cases h : x.1 = bd <;> simp [List.filter_cons, h]

theorem allocTo_append (l₁ l₂ : List PurchaseRec) (bd : ℕ) :
    allocTo (l₁ ++ l₂) bd = allocTo l₁ bd + allocTo l₂ bd := by
  unfold allocTo
  rw [List.filter_append, List.map_append, List.sum_append]

theorem wasteOf_append (l₁ l₂ : List (ℕ × ℚ)) (bd : ℕ) :
    wasteOf (l₁ ++ l₂) bd = wasteOf l₁ bd + wasteOf l₂ bd := by
  unfold wasteOf
  rw [List.filter_append, List.map_append, List.sum_append]

theorem currOf_append (l₁ l₂ : List (ℕ × Batch)) (bd : ℕ) :
    currOf (l₁ ++ l₂) bd = currOf l₁ bd + currOf l₂ bd := by
  unfold currOf
  rw [List.filter_append, List.map_append, List.sum_append]

theorem currOf_not_mem {l : List (ℕ × Batch)} {bd : ℕ}
    (h : bd ∉ l.map Prod.fst) : currOf l bd = 0 := by
  induction l with
  | nil => rfl
  | cons x l ih =>
    rw [currOf_cons]
    simp only [List.map_cons, List.mem_cons, not_or] at h
    rw [if_neg (fun he => h.1 he.symm), ih h.2, add_zero]

theorem wasteOf_not_mem {l : List (ℕ × ℚ)} {bd : ℕ}
    (h : bd ∉ l.map Prod.fst) : wasteOf l bd = 0 := by
  induction l with
  | nil => rfl
  | cons x l ih =>
    rw [wasteOf_cons]
    simp only [List.map_cons, List.mem_cons, not_or] at h
    rw [if_neg (fun he => h.1 he.symm), ih h.2, add_zero]

theorem allocTo_not_mem {l : List PurchaseRec} {bd : ℕ}
    (h : ∀ r ∈ l, r.batch_day ≠ bd) : allocTo l bd = 0 := by
  unfold allocTo
  have : l.filter (fun r => decide (r.batch_day = bd)) = [] := by
    rw [List.filter_eq_nil_iff]
    intro r hr
    simpa using h r hr
  rw [this]
  rfl

theorem mem_of_lookup_eq_some {l : List (ℕ × ℚ)} {k : ℕ} {s : ℚ}
    (h : List.lookup k l = some s) : (k, s) ∈ l := by
  obtain ⟨l₁, l₂, rfl, -⟩ := List.lookup_eq_some_iff.mp h
  exact List.mem_append_right _ (List.mem_cons_self _ _)

theorem lookup_eq_none_of_not_mem {l : List (ℕ × ℚ)} {k : ℕ}
    (h : k ∉ l.map Prod.fst) : List.lookup k l = none := by
  rw [List.lookup_eq_none_iff]
  intro p hp
  simp only [bne_iff_ne, ne_eq]
  intro he
  exact h (List.mem_map.mpr ⟨p, hp, he.symm⟩)

/-- With duplicate-free keys, the keyed sum over a share map is just the
looked-up value. -/
theorem wasteOf_of_lookup {sm : List (ℕ × ℚ)} {k : ℕ} {s : ℚ}
    (hnd : (sm.map Prod.fst).Nodup) (h : List.lookup k sm = some s) :
    wasteOf sm k = s := by
  induction sm with
  | nil => cases h
  | cons p sm ih =>
    rw [List.lookup_cons] at h
    rw [wasteOf_cons]
    simp only [List.map_cons, List.nodup_cons] at hnd
    by_cases he : k = p.1
    · have hb : (p.1 == k) = true := by simp [he]
      rw [show (k == p.1) = true by simp [he]] at h
      simp only [Option.some.injEq] at h
      rw [if_pos he.symm, ← h]
      have hnone : List.lookup k sm = none := by
        apply lookup_eq_none_of_not_mem
        rw [he]
        exact hnd.1
      have : wasteOf sm k = 0 := by
        apply wasteOf_not_mem
        rw [he]
        exact hnd.1
      rw [this, add_zero]
    · rw [show (k == p.1) = false by simpa using he] at h
      rw [if_neg (fun hx => he hx.symm), ih hnd.2 h, zero_add]

theorem keyed_sum_extend (sm : List (ℕ × ℚ)) (k : ℕ) (keys : List ℕ) (s : ℚ)
    (hsm : (sm.map Prod.fst).Nodup) (hlk : List.lookup k sm = some s)
    (hnot : k ∉ keys) (bd : ℕ) :
    ((sm.filter (fun p => decide (p.1 = bd) && decide (p.1 ∈ k :: keys))).map
      (fun p => p.2)).sum =
      ((sm.filter (fun p => decide (p.1 = bd) && decide (p.1 ∈ keys))).map
        (fun p => p.2)).sum + (if k = bd then s else 0) := by
  by_cases hbd : k = bd
  · subst hbd
    have h1 : sm.filter (fun p => decide (p.1 = k) && decide (p.1 ∈ k :: keys)) =
        sm.filter (fun p => decide (p.1 = k)) := by
      apply List.filter_congr
      intro p _
      by_cases hp : p.1 = k
      · simp [hp]
      · simp [hp]
    have h2 : sm.filter (fun p => decide (p.1 = k) && decide (p.1 ∈ keys)) = [] := by
      rw [List.filter_eq_nil_iff]
      intro p _
      by_cases hp : p.1 = k
      · simp [hp, hnot]
      · simp [hp]
    rw [h1, h2, if_pos rfl]
    have h3 : ((sm.filter (fun p => decide (p.1 = k))).map (fun p => p.2)).sum =
        wasteOf sm k := rfl
    rw [h3, wasteOf_of_lookup hsm hlk]
    simp
  · have h1 : sm.filter (fun p => decide (p.1 = bd) && decide (p.1 ∈ k :: keys)) =
        sm.filter (fun p => decide (p.1 = bd) && decide (p.1 ∈ keys)) := by
      apply List.filter_congr
      intro p _
      by_cases hp : p.1 = bd
      · have : (p.1 ∈ k :: keys) ↔ (p.1 ∈ keys) := by
          rw [List.mem_cons]
          constructor
          · rintro (h | h)
            · exact absurd (hp ▸ h) (fun he => hbd he.symm)
            · exact h
          · exact fun h => Or.inr h
        simp only [hp]
        simp only [List.mem_cons]
        have h4 : ¬(bd = k) := fun he => hbd he.symm
        simp [h4]
      · simp [hp]
    rw [h1, if_neg hbd, add_zero]

theorem keyed_sum_skip (sm : List (ℕ × ℚ)) (k : ℕ) (keys : List ℕ)
    (hlk : List.lookup k sm = none) (bd : ℕ) :
    sm.filter (fun p => decide (p.1 = bd) && decide (p.1 ∈ k :: keys)) =
      sm.filter (fun p => decide (p.1 = bd) && decide (p.1 ∈ keys)) := by
  have hkey : ∀ p ∈ sm, p.1 ≠ k := by
    intro p hp he
    have := List.lookup_eq_none_iff.mp hlk p hp
    simp [he] at this
  apply List.filter_congr
  intro p hp
  have : (p.1 ∈ k :: keys) ↔ (p.1 ∈ keys) := by
    rw [List.mem_cons]
    constructor
    · rintro (h | h)
      · exact absurd h (hkey p hp)
      · exact h
    · exact fun h => Or.inr h
  by_cases hp2 : p.1 = bd
  · simp only [hp2, List.mem_cons]
    have h4 : ¬(bd = k) := fun he => (hkey p hp) (hp2.trans he)
    simp [h4]
  · simp [hp2]

/-- Effect of one distributor's ledger update on the remaining quantity of
each batch day: it decreases by exactly the shares recorded against that day
(restricted to days actually in the ledger). -/
theorem currOf_applyShares (sm : List (ℕ × ℚ)) :
    ∀ (bs : List (ℕ × Batch)), (bs.map Prod.fst).Nodup →
      (sm.map Prod.fst).Nodup →
      (∀ pb ∈ bs, ∀ s, List.lookup pb.1 sm = some s → s ≤ pb.2.current) →
      ∀ bd, currOf (applyShares sm bs) bd =
        currOf bs bd - ((sm.filter (fun p => decide (p.1 = bd) &&
          decide (p.1 ∈ bs.map Prod.fst))).map (fun p => p.2)).sum := by
  intro bs
  induction bs with
  | nil =>
    intro _ _ _ bd
    have h : sm.filter (fun p => decide (p.1 = bd) &&
        decide (p.1 ∈ ([] : List (ℕ × Batch)).map Prod.fst)) = [] := by
      rw [List.filter_eq_nil_iff]
      intro p _
      simp
    rw [h]
    simp [applyShares, currOf]
  | cons pb bs ih =>
    intro hnd hsm hle bd
    simp only [List.map_cons, List.nodup_cons] at hnd
    have hle2 : ∀ pb ∈ bs, ∀ s, List.lookup pb.1 sm = some s → s ≤ pb.2.current :=
      fun pb hpb => hle pb (List.mem_cons_of_mem _ hpb)
    have ih2 := ih hnd.2 hsm hle2 bd
    cases hlk : List.lookup pb.1 sm with
    | none =>
      have hstep : applyShares sm (pb :: bs) = pb :: applyShares sm bs := by
        unfold applyShares
        rw [List.filterMap_cons]
        rw [show (match List.lookup pb.1 sm with
          | some s => if pb.2.current - s ≤ 0 then none
              else some (pb.1, { pb.2 with current := pb.2.current - s })
          | none => some pb) = some pb by rw [hlk]]
      rw [hstep, currOf_cons, ih2, currOf_cons, List.map_cons,
        keyed_sum_skip sm pb.1 (bs.map Prod.fst) hlk bd]
      ring
    | some s =>
      have hs_le : s ≤ pb.2.current := hle pb (List.mem_cons_self _ _) s hlk
      have hsum := keyed_sum_extend sm pb.1 (bs.map Prod.fst) s hsm hlk hnd.1 bd
      by_cases hc : pb.2.current - s ≤ 0
      · have hcz : pb.2.current = s := le_antisymm (by linarith) hs_le
        have hstep : applyShares sm (pb :: bs) = applyShares sm bs := by
          unfold applyShares
          rw [List.filterMap_cons]
          rw [show (match List.lookup pb.1 sm with
            | some s => if pb.2.current - s ≤ 0 then none
                else some (pb.1, { pb.2 with current := pb.2.current - s })
            | none => some pb) = none by rw [hlk]; simp [hc]]
        rw [hstep, ih2, currOf_cons, List.map_cons, hsum]
        by_cases hbd : pb.1 = bd
        · simp only [if_pos hbd, hcz]
          ring
        · simp only [if_neg hbd]
          ring
      · have hstep : applyShares sm (pb :: bs) =
            (pb.1, { pb.2 with current := pb.2.current - s }) :: applyShares sm bs := by
          unfold applyShares
          rw [List.filterMap_cons]
          rw [show (match List.lookup pb.1 sm with
            | some s => if pb.2.current - s ≤ 0 then none
                else some (pb.1, { pb.2 with current := pb.2.current - s })
            | none => some pb) =
              some (pb.1, { pb.2 with current := pb.2.current - s }) by
            rw [hlk]; simp [hc]]
        rw [hstep, currOf_cons, ih2, currOf_cons, List.map_cons, hsum]
        by_cases hbd : pb.1 = bd
        · simp only [if_pos hbd]
          ring
        · simp only [if_neg hbd]
          ring

theorem key_inj {l : List (ℕ × Batch)} (hnd : (l.map Prod.fst).Nodup)
    {x y : ℕ × Batch} (hx : x ∈ l) (hy : y ∈ l) (he : x.1 = y.1) : x = y := by
  induction l with
  | nil => cases hx
  | cons z l ih =>
    simp only [List.map_cons, List.nodup_cons] at hnd
    rcases List.mem_cons.mp hx with rfl | hx2
    · rcases List.mem_cons.mp hy with rfl | hy2
      · rfl
      · exact absurd (he ▸ List.mem_map.mpr ⟨y, hy2, rfl⟩) hnd.1
    · rcases List.mem_cons.mp hy with rfl | hy2
      · exact absurd (he ▸ List.mem_map.mpr ⟨x, hx2, rfl⟩) hnd.1
      · exact ih hnd.2 hx2 hy2

theorem allocTo_cons (r : PurchaseRec) (l : List PurchaseRec) (bd : ℕ) :
    allocTo (r :: l) bd = (if r.batch_day = bd then r.quantity else 0) + allocTo l bd := by
  unfold allocTo
  by_cases h : r.batch_day = bd <;> simp [List.filter_cons, h]

/-- The quantities appended to the ledger for one distributor sum, per batch
day, to that day's recorded share (rows are only appended for positive
shares, and zero shares contribute nothing). -/
theorem allocTo_newRecs (pname : String) (day : ℕ) (dist : Distributor)
    (proportion rate : ℚ) (shares : List (ℕ × ℚ × ℚ))
    (h : ∀ t ∈ shares, 0 ≤ t.2.2) (bd : ℕ) :
    allocTo ((shares.filter (fun t => decide (0 < t.2.2))).map
      (mkRec pname day dist proportion rate)) bd =
      wasteOf (shares.map (fun t => (t.1, t.2.2))) bd := by
  induction shares with
  | nil => rfl
  | cons t l ih =>
    have ht := h t (List.mem_cons_self _ _)
    have ih2 := ih (fun u hu => h u (List.mem_cons_of_mem _ hu))
    simp only [List.map_cons, wasteOf_cons]
    by_cases hpos : 0 < t.2.2
    · rw [List.filter_cons, if_pos (by simpa using hpos), List.map_cons,
        allocTo_cons, ih2]
      rfl
    · have hz : t.2.2 = 0 := le_antisymm (not_lt.mp hpos) ht
      rw [List.filter_cons, if_neg (by simpa using hpos), ih2, hz]
      simp

theorem restricted_sum_eq (sm : List (ℕ × ℚ)) (keys : List ℕ)
    (hsub : ∀ p ∈ sm, p.1 ∈ keys) (bd : ℕ) :
    ((sm.filter (fun p => decide (p.1 = bd) && decide (p.1 ∈ keys))).map
      (fun p => p.2)).sum = wasteOf sm bd := by
  unfold wasteOf
  congr 1
  congr 1
  apply List.filter_congr
  intro p hp
  simp [hsub p hp]

theorem shares_keys_eq (A T : ℚ) (l : List (ℕ × ℚ)) (rem : ℚ) :
    (distributeShares A T l rem).map Prod.fst = l.map Prod.fst := by
  have h := distributeShares_fst_curr A T l rem
  have h2 : (distributeShares A T l rem).map Prod.fst =
      ((distributeShares A T l rem).map (fun t => (t.1, t.2.1))).map Prod.fst := by
    rw [List.map_map]
    rfl
  rw [h2, h]

theorem currOf_filter_split (P : (ℕ × Batch) → Bool) (bs : List (ℕ × Batch)) (bd : ℕ) :
    currOf bs bd = currOf (bs.filter P) bd + currOf (bs.filter (fun x => ! P x)) bd := by
  induction bs with
  | nil => simp [currOf]
  | cons pb bs ih =>
    cases hP : P pb with
    | true =>
      have hfP : List.filter P (pb :: bs) = pb :: List.filter P bs := by
        simp [List.filter_cons, hP]
      have hfN : List.filter (fun x => ! P x) (pb :: bs) =
          List.filter (fun x => ! P x) bs := by
        simp [List.filter_cons, hP]
      rw [hfP, hfN, currOf_cons, currOf_cons, ih]
      ring
    | false =>
      have hfP : List.filter P (pb :: bs) = List.filter P bs := by
        simp [List.filter_cons, hP]
      have hfN : List.filter (fun x => ! P x) (pb :: bs) =
          pb :: List.filter (fun x => ! P x) bs := by
        simp [List.filter_cons, hP]
      rw [hfP, hfN, currOf_cons, currOf_cons, ih]
      ring

theorem wasteOf_map_batches (l : List (ℕ × Batch)) (bd : ℕ) :
    wasteOf (l.map (fun pb => (pb.1, pb.2.current))) bd = currOf l bd := by
  induction l with
  | nil => rfl
  | cons pb l ih =>
    simp only [List.map_cons]
    rw [wasteOf_cons, currOf_cons, ih]

theorem sm_keys_facts (day : ℕ) (dist : Distributor) (st : SimState)
    (hnd : (st.batches.map Prod.fst).Nodup) (A T rem : ℚ) :
    (((distributeShares A T
        (sortK ((validBatches day dist.policy_days st.batches).map
          (fun pb => (pb.1, pb.2.current)))) rem).map
      (fun t => (t.1, t.2.2))).map Prod.fst).Nodup ∧
      (∀ p ∈ (distributeShares A T
          (sortK ((validBatches day dist.policy_days st.batches).map
            (fun pb => (pb.1, pb.2.current)))) rem).map (fun t => (t.1, t.2.2)),
        p.1 ∈ st.batches.map Prod.fst) := by
  have hkeys : ((distributeShares A T
      (sortK ((validBatches day dist.policy_days st.batches).map
        (fun pb => (pb.1, pb.2.current)))) rem).map
    (fun t => (t.1, t.2.2))).map Prod.fst =
      (sortK ((validBatches day dist.policy_days st.batches).map
        (fun pb => (pb.1, pb.2.current)))).map Prod.fst := by
    rw [List.map_map]
    have h1 : (Prod.fst ∘ fun t : ℕ × ℚ × ℚ => (t.1, t.2.2)) = Prod.fst := rfl
    rw [h1, shares_keys_eq]
  have hperm : List.Perm
      ((sortK ((validBatches day dist.policy_days st.batches).map
        (fun pb => (pb.1, pb.2.current)))).map Prod.fst)
      (((validBatches day dist.policy_days st.batches).map
        (fun pb => (pb.1, pb.2.current))).map Prod.fst) :=
    (sortK_perm _).map _
  have hvk : ((validBatches day dist.policy_days st.batches).map
      (fun pb => (pb.1, pb.2.current))).map Prod.fst =
      (validBatches day dist.policy_days st.batches).map Prod.fst := by
    rw [List.map_map]
    rfl
  have hsubl : ((validBatches day dist.policy_days st.batches).map
      Prod.fst).Sublist (st.batches.map Prod.fst) :=
    (List.filter_sublist _).map _
  constructor
  · rw [hkeys]
    rw [hperm.nodup_iff]
    rw [hvk]
    exact hsubl.nodup hnd
  · intro p hp
    have h2 : p.1 ∈ ((distributeShares A T
        (sortK ((validBatches day dist.policy_days st.batches).map
          (fun pb => (pb.1, pb.2.current)))) rem).map
      (fun t => (t.1, t.2.2))).map Prod.fst := List.mem_map.mpr ⟨p, hp, rfl⟩
    rw [hkeys] at h2
    have h3 := hperm.subset h2
    rw [hvk] at h3
    exact hsubl.subset h3

/-- One distributor step preserves, for every batch day, the sum
`allocated + wasted + remaining`. -/
theorem distributorStep_balance (pname : String) (rate : ℚ) (day : ℕ)
    (st : SimState) (dist : Distributor) (hp : 0 ≤ dist.proportion)
    (hnd : (st.batches.map Prod.fst).Nodup) (bd : ℕ) :
    allocTo (distributorStep pname rate day st dist).purchases bd +
      wasteOf (distributorStep pname rate day st dist).waste bd +
      currOf (distributorStep pname rate day st dist).batches bd =
      allocTo st.purchases bd + wasteOf st.waste bd + currOf st.batches bd := by
  simp only [distributorStep]
  split
  · rfl
  · split
    · rfl
    · split
      · rfl
      · have hA : 0 ≤ totalAvailable day dist st := totalAvailable_nonneg day dist st
        have hT : (0 : ℚ) ≤
            ((pyRound (pyRound2 dist.proportion * totalAvailable day dist st) : ℤ) : ℚ) := by
          have h1 : 0 ≤ pyRound2 dist.proportion * totalAvailable day dist st :=
            mul_nonneg (pyRound2_nonneg hp) hA
          exact_mod_cast pyRound_nonneg h1
        have hnn := distributeShares_share_nonneg
          (totalAvailable day dist st)
          ((pyRound (pyRound2 dist.proportion * totalAvailable day dist st) : ℤ) : ℚ)
          hA hT
          (sortK ((validBatches day dist.policy_days st.batches).map
            (fun pb => (pb.1, pb.2.current))))
          ((pyRound (pyRound2 dist.proportion * totalAvailable day dist st) : ℤ) : ℚ)
          hT (valid_currents_nonneg day dist.policy_days st.batches)
        obtain ⟨hsmk, hsub⟩ := sm_keys_facts day dist st hnd
          (totalAvailable day dist st)
          ((pyRound (pyRound2 dist.proportion * totalAvailable day dist st) : ℤ) : ℚ)
          ((pyRound (pyRound2 dist.proportion * totalAvailable day dist st) : ℤ) : ℚ)
        have hle : ∀ pb ∈ st.batches, ∀ s,
            List.lookup pb.1 ((distributeShares
              (totalAvailable day dist st)
              ((pyRound (pyRound2 dist.proportion * totalAvailable day dist st) : ℤ) : ℚ)
              (sortK ((validBatches day dist.policy_days st.batches).map
                (fun pb => (pb.1, pb.2.current))))
              ((pyRound (pyRound2 dist.proportion * totalAvailable day dist st) : ℤ) : ℚ)).map
                (fun t => (t.1, t.2.2))) = some s → s ≤ pb.2.current := by
          intro pb hpb s hlk
          have hmem := mem_of_lookup_eq_some hlk
          obtain ⟨t, ht, heq⟩ := List.mem_map.mp hmem
          obtain ⟨pb', hpb', h1, h2, _, _, hle2⟩ := shares_to_valid ht
          have hk1 : pb'.1 = pb.1 := by
            rw [h1]
            exact congrArg Prod.fst heq
          have hpbe : pb' = pb := key_inj hnd hpb' hpb hk1
          have hs : t.2.2 = s := congrArg Prod.snd heq
          rw [← hs, ← hpbe, h2]
          exact hle2
        rw [allocTo_append,
          allocTo_newRecs pname day dist (pyRound2 dist.proportion) rate _ hnn bd,
          currOf_applyShares _ st.batches hnd hsmk hle bd,
          restricted_sum_eq _ _ hsub bd]
        ring

/-- Each surviving ledger entry after a distributor step is either untouched
or the same batch with its stock decreased but still positive. -/
theorem distributorStep_batches_rel (pname : String) (rate : ℚ) (day : ℕ)
    (st : SimState) (dist : Distributor) (hp : 0 ≤ dist.proportion) :
    ∀ pb' ∈ (distributorStep pname rate day st dist).batches,
      pb' ∈ st.batches ∨ ∃ pb ∈ st.batches, pb'.1 = pb.1 ∧
        pb'.2.initial = pb.2.initial ∧ pb'.2.expiry = pb.2.expiry ∧
        0 < pb'.2.current ∧ pb'.2.current ≤ pb.2.current := by
  intro pb' hpb'
  simp only [distributorStep] at hpb'
  split at hpb'
  · exact Or.inl hpb'
  · split at hpb'
    · exact Or.inl hpb'
    · split at hpb'
      · exact Or.inl hpb'
      · have hA : 0 ≤ totalAvailable day dist st := totalAvailable_nonneg day dist st
        have hT : (0 : ℚ) ≤
            ((pyRound (pyRound2 dist.proportion * totalAvailable day dist st) : ℤ) : ℚ) := by
          have h1 : 0 ≤ pyRound2 dist.proportion * totalAvailable day dist st :=
            mul_nonneg (pyRound2_nonneg hp) hA
          exact_mod_cast pyRound_nonneg h1
        have hnn := distributeShares_share_nonneg
          (totalAvailable day dist st)
          ((pyRound (pyRound2 dist.proportion * totalAvailable day dist st) : ℤ) : ℚ)
          hA hT
          (sortK ((validBatches day dist.policy_days st.batches).map
            (fun pb => (pb.1, pb.2.current))))
          ((pyRound (pyRound2 dist.proportion * totalAvailable day dist st) : ℤ) : ℚ)
          hT (valid_currents_nonneg day dist.policy_days st.batches)
        obtain ⟨pb, hpb, hf⟩ := List.mem_filterMap.mp hpb'
        revert hf
        dsimp only
        cases hlk : List.lookup pb.1 ((distributeShares
            (totalAvailable day dist st)
            ((pyRound (pyRound2 dist.proportion * totalAvailable day dist st) : ℤ) : ℚ)
            (sortK ((validBatches day dist.policy_days st.batches).map
              (fun pb => (pb.1, pb.2.current))))
            ((pyRound (pyRound2 dist.proportion * totalAvailable day dist st) : ℤ) : ℚ)).map
              (fun t => (t.1, t.2.2))) with
        | none =>
          intro hf
          cases hf
          exact Or.inl hpb
        | some s =>
          intro hf
          dsimp only at hf
          by_cases hc : pb.2.current - s ≤ 0
          · rw [if_pos hc] at hf
            cases hf
          · rw [if_neg hc] at hf
            cases hf
            right
            have hs0 : 0 ≤ s := by
              have hmem := mem_of_lookup_eq_some hlk
              obtain ⟨t, ht, heq⟩ := List.mem_map.mp hmem
              have hs : t.2.2 = s := congrArg Prod.snd heq
              rw [← hs]
              exact hnn t ht
            refine ⟨pb, hpb, rfl, rfl, rfl, ?_, ?_⟩
            · show (0 : ℚ) < pb.2.current - s
              push_neg at hc
              linarith
            · show pb.2.current - s ≤ pb.2.current
              linarith

theorem distributorStep_waste_eq (pname : String) (rate : ℚ) (day : ℕ)
    (st : SimState) (dist : Distributor) :
    (distributorStep pname rate day st dist).waste = st.waste := by
  simp only [distributorStep]
  split
  · rfl
  · split
    · rfl
    · split
      · rfl
      · rfl

theorem distributorStep_rel (pname : String) (rate : ℚ) (day : ℕ)
    (st : SimState) (dist : Distributor) (hp : 0 ≤ dist.proportion) :
    ∀ pb' ∈ (distributorStep pname rate day st dist).batches,
      ∃ pb ∈ st.batches, pb'.1 = pb.1 ∧ pb'.2.initial = pb.2.initial ∧
        pb'.2.expiry = pb.2.expiry ∧ pb'.2.current ≤ pb.2.current ∧
        (pb' = pb ∨ 0 < pb'.2.current) := by
  intro pb' hpb'
  rcases distributorStep_batches_rel pname rate day st dist hp pb' hpb' with h | h
  · exact ⟨pb', h, rfl, rfl, rfl, le_refl _, Or.inl rfl⟩
  · obtain ⟨pb, hpb, h1, h2, h3, h4, h5⟩ := h
    exact ⟨pb, hpb, h1, h2, h3, h5, Or.inr h4⟩

theorem foldl_waste_eq (pname : String) (rate : ℚ) (day : ℕ)
    (ds : List Distributor) :
    ∀ st : SimState, (ds.foldl (distributorStep pname rate day) st).waste = st.waste := by
  induction ds with
  | nil => intro st; rfl
  | cons d ds ih =>
    intro st
    simp only [List.foldl_cons]
    rw [ih, distributorStep_waste_eq]

theorem foldl_keys_sublist (pname : String) (rate : ℚ) (day : ℕ)
    (ds : List Distributor) :
    ∀ st : SimState,
      (((ds.foldl (distributorStep pname rate day) st).batches).map Prod.fst).Sublist
        (st.batches.map Prod.fst) := by
  induction ds with
  | nil => intro st; exact List.Sublist.refl _
  | cons d ds ih =>
    intro st
    simp only [List.foldl_cons]
    exact (ih _).trans (distributorStep_keys_sublist pname rate day st d)

theorem foldl_balance (pname : String) (rate : ℚ) (day : ℕ)
    (ds : List Distributor) (hp : ∀ d ∈ ds, 0 ≤ d.proportion) :
    ∀ st : SimState, (st.batches.map Prod.fst).Nodup → ∀ bd,
      allocTo (ds.foldl (distributorStep pname rate day) st).purchases bd +
        wasteOf (ds.foldl (distributorStep pname rate day) st).waste bd +
        currOf (ds.foldl (distributorStep pname rate day) st).batches bd =
      allocTo st.purchases bd + wasteOf st.waste bd + currOf st.batches bd := by
  induction ds with
  | nil => intro st _ bd; rfl
  | cons d ds ih =>
    intro st hnd bd
    simp only [List.foldl_cons]
    have hnd2 : (((distributorStep pname rate day st d).batches).map Prod.fst).Nodup :=
      (distributorStep_keys_sublist pname rate day st d).nodup hnd
    rw [ih (fun x hx => hp x (List.mem_cons_of_mem _ hx)) _ hnd2 bd]
    exact distributorStep_balance pname rate day st d
      (hp d (List.mem_cons_self _ _)) hnd bd

theorem foldl_batches_rel (pname : String) (rate : ℚ) (day : ℕ)
    (ds : List Distributor) (hp : ∀ d ∈ ds, 0 ≤ d.proportion) :
    ∀ st : SimState, ∀ pb' ∈ (ds.foldl (distributorStep pname rate day) st).batches,
      ∃ pb ∈ st.batches, pb'.1 = pb.1 ∧ pb'.2.initial = pb.2.initial ∧
        pb'.2.expiry = pb.2.expiry ∧ pb'.2.current ≤ pb.2.current ∧
        (pb' = pb ∨ 0 < pb'.2.current) := by
  induction ds with
  | nil => intro st pb' h; exact ⟨pb', h, rfl, rfl, rfl, le_refl _, Or.inl rfl⟩
  | cons d ds ih =>
    intro st pb' hpb'
    simp only [List.foldl_cons] at hpb'
    obtain ⟨pbm, hpbm, k1, k2, k3, k4, k5⟩ :=
      ih (fun x hx => hp x (List.mem_cons_of_mem _ hx)) _ pb' hpb'
    obtain ⟨pb, hpb, m1, m2, m3, m4, m5⟩ :=
      distributorStep_rel pname rate day st d (hp d (List.mem_cons_self _ _)) pbm hpbm
    refine ⟨pb, hpb, k1.trans m1, k2.trans m2, k3.trans m3, le_trans k4 m4, ?_⟩
    rcases k5 with rfl | k5
    · exact m5
    · exact Or.inr k5

theorem addBatch_inv (plan : List (ℕ × ℚ)) (shelf_life : ℕ) (k : ℕ)
    (st : SimState) (hinv : SimInv plan k st) :
    SimInv plan (k + 1) { st with batches := addBatch plan shelf_life (k + 1) st.batches } := by
  obtain ⟨h1, h2, h3, h4, h5, h6⟩ := hinv
  have hkey_old : (k + 1) ∉ st.batches.map Prod.fst := by
    intro hmem
    obtain ⟨pb, hpb, he⟩ := List.mem_map.mp hmem
    have := (h1 pb hpb).2
    omega
  have hcons_old : ∀ bd, bd ≤ k →
      allocTo st.purchases bd + wasteOf st.waste bd + currOf st.batches bd =
        allocTo ({ st with batches := addBatch plan shelf_life (k + 1) st.batches }).purchases bd +
        wasteOf ({ st with batches := addBatch plan shelf_life (k + 1) st.batches }).waste bd +
        currOf (addBatch plan shelf_life (k + 1) st.batches) bd := by
    intro bd hbd
    unfold addBatch
    cases List.lookup (k + 1) plan with
    | none => rfl
    | some q =>
      dsimp only
      by_cases hq : 0 < q
      · rw [if_pos hq]
        show _ = allocTo st.purchases bd + wasteOf st.waste bd + currOf (st.batches ++ _) bd
        rw [currOf_append, currOf_cons]
        have : ¬((k + 1 : ℕ) = bd) := by omega
        rw [if_neg this]
        show _ = allocTo st.purchases bd + wasteOf st.waste bd + (currOf st.batches bd + (0 + 0))
        ring
      · rw [if_neg hq]
  unfold addBatch
  cases hlk : List.lookup (k + 1) plan with
  | none =>
    exact ⟨fun pb hpb => ⟨(h1 pb hpb).1, by have := (h1 pb hpb).2; omega⟩, h2,
      fun pw hpw => by have := h3 pw hpw; omega,
      fun r hr => by have := h4 r hr; omega, h5,
      fun bd q hq hq0 hb1 hb2 => by
        rcases Nat.lt_or_ge bd (k + 1) with hlt | hge
        · have hbd : bd ≤ k := by omega
          have := h6 bd q hq hq0 hb1 hbd
          rw [this]
        · have : bd = k + 1 := by omega
          rw [this] at hq
          rw [hlk] at hq
          cases hq⟩
  | some q0 =>
    by_cases hq0 : 0 < q0
    · dsimp only
      rw [if_pos hq0]
      refine ⟨?_, ?_, ?_, ?_, ?_, ?_⟩
      · intro pb hpb
        rcases List.mem_append.mp hpb with h | h
        · exact ⟨(h1 pb h).1, by have := (h1 pb h).2; omega⟩
        · rcases List.mem_singleton.mp h with rfl
          exact ⟨by omega, le_refl _⟩
      · rw [List.map_append]
        apply List.Nodup.append h2 (by simp)
        intro a ha hb
        simp only [List.map_cons, List.map_nil, List.mem_singleton] at hb
        rw [hb] at ha
        exact hkey_old ha
      · intro pw hpw
        have := h3 pw hpw
        omega
      · intro r hr
        have := h4 r hr
        omega
      · intro pb hpb
        rcases List.mem_append.mp hpb with h | h
        · exact h5 pb h
        · rcases List.mem_singleton.mp h with rfl
          exact ⟨le_of_lt hq0, le_refl _⟩
      · intro bd q hq hqpos hb1 hb2
        rcases Nat.lt_or_ge bd (k + 1) with hlt | hge
        · have hbd : bd ≤ k := by omega
          have h7 := hcons_old bd hbd
          unfold addBatch at h7
          rw [hlk] at h7
          dsimp only at h7
          rw [if_pos hq0] at h7
          rw [h6 bd q hq hqpos hb1 hbd]
          exact h7
        · have hbd : bd = k + 1 := by omega
          subst hbd
          have hqq : q = q0 := by
            rw [hlk] at hq
            cases hq
            rfl
          subst hqq
          have ha0 : allocTo st.purchases (k + 1) = 0 := by
            apply allocTo_not_mem
            intro r hr he
            have := h4 r hr
            omega
          have hw0 : wasteOf st.waste (k + 1) = 0 := by
            apply wasteOf_not_mem
            intro hmem
            obtain ⟨pw, hpw, he⟩ := List.mem_map.mp hmem
            have := h3 pw hpw
            omega
          have hc0 : currOf st.batches (k + 1) = 0 := currOf_not_mem hkey_old
          show q = allocTo st.purchases (k + 1) + wasteOf st.waste (k + 1) +
            currOf (st.batches ++ _) (k + 1)
          rw [ha0, hw0, currOf_append, hc0, currOf_cons, if_pos rfl]
          show q = 0 + 0 + (0 + (q + currOf [] (k + 1)))
          show q = 0 + 0 + (0 + (q + 0))
          ring
    · dsimp only
      rw [if_neg hq0]
      exact ⟨fun pb hpb => ⟨(h1 pb hpb).1, by have := (h1 pb hpb).2; omega⟩, h2,
        fun pw hpw => by have := h3 pw hpw; omega,
        fun r hr => by have := h4 r hr; omega, h5,
        fun bd q hq hqpos hb1 hb2 => by
          rcases Nat.lt_or_ge bd (k + 1) with hlt | hge
          · have hbd : bd ≤ k := by omega
            rw [h6 bd q hq hqpos hb1 hbd]
          · have hbd : bd = k + 1 := by omega
            subst hbd
            rw [hlk] at hq
            cases hq
            exact absurd hqpos hq0⟩

theorem expireStep_inv (plan : List (ℕ × ℚ)) (k : ℕ) (st : SimState)
    (hinv : SimInv plan k st) : SimInv plan k (expireStep k st) := by
  obtain ⟨h1, h2, h3, h4, h5, h6⟩ := hinv
  refine ⟨?_, ?_, ?_, h4, ?_, ?_⟩
  · intro pb hpb
    exact h1 pb (List.mem_of_mem_filter hpb)
  · exact ((List.filter_sublist _).map _).nodup h2
  · intro pw hpw
    rcases List.mem_append.mp hpw with h | h
    · exact h3 pw h
    · obtain ⟨pb, hpb, he⟩ := List.mem_map.mp h
      have := (h1 pb (List.mem_of_mem_filter hpb)).2
      rw [← he]
      exact this
  · intro pb hpb
    exact h5 pb (List.mem_of_mem_filter hpb)
  · intro bd q hq hqpos hb1 hb2
    rw [h6 bd q hq hqpos hb1 hb2]
    show _ = allocTo st.purchases bd + wasteOf (st.waste ++ _) bd + currOf (st.batches.filter _) bd
    rw [wasteOf_append, wasteOf_map_batches,
      currOf_filter_split (fun pb => decide (pb.2.expiry = (k : ℤ))) st.batches bd]
    ring

theorem foldl_inv (pname : String) (rate : ℚ) (plan : List (ℕ × ℚ)) (k : ℕ)
    (ds : List Distributor) (hp : ∀ d ∈ ds, 0 ≤ d.proportion) (st : SimState)
    (hinv : SimInv plan k st) :
    SimInv plan k (ds.foldl (distributorStep pname rate k) st) := by
  obtain ⟨h1, h2, h3, h4, h5, h6⟩ := hinv
  have hsubl := foldl_keys_sublist pname rate k ds st
  refine ⟨?_, hsubl.nodup h2, ?_, ?_, ?_, ?_⟩
  · intro pb hpb
    obtain ⟨pb0, hpb0, k1, _, _, _, _⟩ := foldl_batches_rel pname rate k ds hp st pb hpb
    rw [k1]
    exact h1 pb0 hpb0
  · intro pw hpw
    rw [foldl_waste_eq] at hpw
    exact h3 pw hpw
  · intro r hr
    rcases foldl_distributorStep_purchases pname rate k ds st r hr with h | h
    · exact h4 r h
    · obtain ⟨_, _, _, _, hbd⟩ := h
      obtain ⟨pb, hpb, he⟩ := List.mem_map.mp hbd
      rw [← he]
      exact (h1 pb hpb).2
  · intro pb hpb
    obtain ⟨pb0, hpb0, _, k2, _, k4, k5⟩ := foldl_batches_rel pname rate k ds hp st pb hpb
    rcases k5 with rfl | k5
    · exact h5 pb hpb0
    · exact ⟨le_of_lt k5, by rw [k2]; exact le_trans k4 (h5 pb0 hpb0).2⟩
  · intro bd q hq hqpos hb1 hb2
    rw [h6 bd q hq hqpos hb1 hb2]
    exact (foldl_balance pname rate k ds hp st h2 bd).symm

theorem simInv_log_update (plan : List (ℕ × ℚ)) (k : ℕ) (st : SimState)
    (L : List SnapRec) (h : SimInv plan k st) :
    SimInv plan k { st with inventory_log := L } := h

theorem dayStep_inv (pname : String) (plan : List (ℕ × ℚ)) (shelf_life : ℕ)
    (dists : List Distributor) (rate : ℚ)
    (hp : ∀ d ∈ dists, 0 ≤ d.proportion) (k : ℕ) (st : SimState)
    (hinv : SimInv plan k st) :
    SimInv plan (k + 1) (dayStep pname plan shelf_life dists rate st (k + 1)) := by
  have hp2 : ∀ d ∈ sortByPolicy dists, 0 ≤ d.proportion :=
    fun d hd => hp d ((sortByPolicy_perm dists).subset hd)
  have hA := addBatch_inv plan shelf_life k st hinv
  have hB : SimInv plan (k + 1)
      (expireStep (k + 1)
        { st with batches := addBatch plan shelf_life (k + 1) st.batches,
                  inventory_log := st.inventory_log ++
                    [snapshot "Start" (k + 1) (addBatch plan shelf_life (k + 1) st.batches)] }) :=
    expireStep_inv plan (k + 1) _ hA
  have hC := foldl_inv pname rate plan (k + 1) (sortByPolicy dists) hp2 _ hB
  exact hC

theorem runProduct_inv (pname : String) (shelf_life : ℕ) (plan : List (ℕ × ℚ))
    (dists : List Distributor) (rate : ℚ)
    (hp : ∀ d ∈ dists, 0 ≤ d.proportion) :
    ∀ n : ℕ, SimInv plan n (runProduct pname shelf_life plan dists rate n) := by
  intro n
  induction n with
  | zero =>
    refine ⟨?_, ?_, ?_, ?_, ?_, ?_⟩
    · intro pb hpb
      cases hpb
    · simp [runProduct, initState]
    · intro pw hpw
      cases hpw
    · intro r hr
      cases hr
    · intro pb hpb
      cases hpb
    · intro bd q hq hqpos hb1 hb2
      omega
  | succ n ih =>
    rw [runProduct_succ]
    exact dayStep_inv pname plan shelf_life dists rate hp n _ ih

/-- **C4**: conservation per batch.  For every batch created during a run
(a production day `bd ∈ [1..n]` with positive planned quantity), the planned
quantity splits exactly into the quantities allocated to it, the waste
recorded for it, and the remainder still in the ledger at the end of the
horizon; moreover `0 ≤ current ≤ initial` holds for every live batch after
every simulated day, and a single distributor step preserves those bounds
in any state. -/
theorem c4_conservation (pname : String) (shelf_life : ℕ)
    (plan : List (ℕ × ℚ)) (dists : List Distributor) (rate : ℚ) (n : ℕ)
    (hp : ∀ d ∈ dists, 0 ≤ d.proportion) :
    (∀ bd q, List.lookup bd plan = some q → 0 < q → 1 ≤ bd → bd ≤ n →
      q = allocTo (runProduct pname shelf_life plan dists rate n).purchases bd +
        wasteOf (runProduct pname shelf_life plan dists rate n).waste bd +
        currOf (runProduct pname shelf_life plan dists rate n).batches bd) ∧
    (∀ k : ℕ, ∀ pb ∈ (runProduct pname shelf_life plan dists rate k).batches,
      0 ≤ pb.2.current ∧ pb.2.current ≤ pb.2.initial) ∧
    (∀ (day : ℕ) (st : SimState) (dist : Distributor), 0 ≤ dist.proportion →
      (∀ pb ∈ st.batches, 0 ≤ pb.2.current ∧ pb.2.current ≤ pb.2.initial) →
      ∀ pb ∈ (distributorStep pname rate day st dist).batches,
        0 ≤ pb.2.current ∧ pb.2.current ≤ pb.2.initial) := by
  refine ⟨?_, ?_, ?_⟩
  · exact (runProduct_inv pname shelf_life plan dists rate hp n).2.2.2.2.2
  · intro k
    exact (runProduct_inv pname shelf_life plan dists rate hp k).2.2.2.2.1
  · intro day st dist hpd hb pb hpb
    rcases distributorStep_rel pname rate day st dist hpd pb hpb with ⟨pb0, hpb0, _, k2, _, k4, k5⟩
    rcases k5 with rfl | k5
    · exact hb pb hpb0
    · exact ⟨le_of_lt k5, by rw [k2]; exact le_trans k4 (hb pb0 hpb0).2⟩

theorem c4_conservation_witness :
    (∀ d ∈ [distC5], (0 : ℚ) ≤ d.proportion) ∧
      ((∀ bd q, List.lookup bd [((1 : ℕ), (100 : ℚ))] = some q → 0 < q → 1 ≤ bd → bd ≤ 5 →
        q = allocTo (runProduct "P" 3 [(1, 100)] [distC5] (1/100) 5).purchases bd +
          wasteOf (runProduct "P" 3 [(1, 100)] [distC5] (1/100) 5).waste bd +
          currOf (runProduct "P" 3 [(1, 100)] [distC5] (1/100) 5).batches bd) ∧
      (∀ k : ℕ, ∀ pb ∈ (runProduct "P" 3 [(1, 100)] [distC5] (1/100) k).batches,
        0 ≤ pb.2.current ∧ pb.2.current ≤ pb.2.initial) ∧
      (∀ (day : ℕ) (st : SimState) (dist : Distributor), 0 ≤ dist.proportion →
        (∀ pb ∈ st.batches, 0 ≤ pb.2.current ∧ pb.2.current ≤ pb.2.initial) →
        ∀ pb ∈ (distributorStep "P" (1/100) day st dist).batches,
          0 ≤ pb.2.current ∧ pb.2.current ≤ pb.2.initial)) :=
  ⟨by norm_num [distC5],
    c4_conservation "P" 3 [(1, 100)] [distC5] (1/100) 5 (by norm_num [distC5])⟩
